import Mathlib

/-!
Verification of the cabide block store (src/lib.rs, src/protocol.rs,
src/error.rs, src/hash.rs, src/order.rs).

The file system is modelled shallowly: a file is a `List Nat` of bytes, a
folder is a partial map from shard names to file contents.  The record codec
(bincode in the source) is an external collaborator and is passed in as a pair
of functions `enc : T -> List Nat` / `dec : List Nat -> Option T`.
-/

/-- Constant from src/protocol.rs: marker byte before the optional padding. -/
def END_BYTE : Nat := 8

/-- Constant from src/protocol.rs: bytes per on-disk block. -/
def BLOCK_SIZE : Nat := 30

/-- Constant from src/protocol.rs: payload bytes per block. -/
def CONTENT_SIZE : Nat := BLOCK_SIZE - 2

/-- Metadata::Empty as u8 (src/protocol.rs). -/
def tagEmpty : Nat := 0

/-- Metadata::Start as u8 (src/protocol.rs). -/
def tagStart : Nat := 1

/-- Metadata::Continuation as u8 (src/protocol.rs). -/
def tagCont : Nat := 2

/-- Error enum of src/error.rs, together with the NotExistant variant that
src/hash.rs matches on. -/
inductive CbdError where
  | IoErr : CbdError
  | CorruptedBlock : CbdError
  | ContinuationBlock : CbdError
  | EmptyBlock : CbdError
  | NotExistant : CbdError
deriving DecidableEq, Repr

/-- Ceiling division, modelling the float `(a as f64 / b as f64).ceil()`
expressions of the source (exact for the file sizes involved). -/
def ceilDiv (a b : Nat) : Nat := (a + b - 1) / b

/-- Fuel-driven worker for `chunksOf` (structural recursion so that closed
instances reduce in the kernel). -/
def chunksGo (n : Nat) (fuel : Nat) (l : List Nat) : List (List Nat) :=
  match fuel with
  | 0 => []
  | f + 1 => if l = [] ∨ n = 0 then [] else l.take n :: chunksGo n f (l.drop n)

/-- Rust slice::chunks - splits a list into consecutive chunks of n elements,
the last chunk possibly shorter, no empty chunks. -/
def chunksOf (n : Nat) (l : List Nat) : List (List Nat) :=
  chunksGo n l.length l

theorem chunksGo_congr (n : Nat) (f1 f2 : Nat) (l : List Nat)
    (h1 : l.length ≤ f1) (h2 : l.length ≤ f2) :
    chunksGo n f1 l = chunksGo n f2 l := by
  induction f1 generalizing f2 l with
  | zero =>
    have : l = [] := List.eq_nil_of_length_eq_zero (Nat.le_zero.mp h1)
    subst this
    cases f2 <;> simp [chunksGo]
  | succ f ih =>
    cases f2 with
    | zero =>
      have : l = [] := List.eq_nil_of_length_eq_zero (Nat.le_zero.mp h2)
      subst this
      simp [chunksGo]
    | succ f2 =>
      simp only [chunksGo]
      rcases em (l = [] ∨ n = 0) with h | h
      · simp [h]
      · have hl : l ≠ [] := fun he => h (Or.inl he)
        have hn : n ≠ 0 := fun he => h (Or.inr he)
        have hlen : 0 < l.length := List.length_pos.mpr hl
        simp only [if_neg h]
        have hd : (l.drop n).length ≤ f := by
          simp only [List.length_drop]; omega
        have hd2 : (l.drop n).length ≤ f2 := by
          simp only [List.length_drop]; omega
        rw [ih f2 (l.drop n) hd hd2]

/-- The defining unfolding of `chunksOf`. -/
theorem chunksOf_eq (n : Nat) (l : List Nat) :
    chunksOf n l = if l = [] ∨ n = 0 then [] else l.take n :: chunksOf n (l.drop n) := by
  unfold chunksOf
  rcases em (l = [] ∨ n = 0) with h | h
  · cases hl : l with
    | nil => simp [chunksGo]
    | cons a as =>
      rcases h with h | h
      · simp [hl] at h
      · subst h; simp [hl, chunksGo]
  · have hl : l ≠ [] := fun he => h (Or.inl he)
    have hn : n ≠ 0 := fun he => h (Or.inr he)
    have hlen : 0 < l.length := List.length_pos.mpr hl
    cases hL : l.length with
    | zero => omega
    | succ m =>
      simp only [chunksGo, if_neg h]
      refine congrArg (l.take n :: ·) (chunksGo_congr n m (l.drop n).length (l.drop n) ?_ ?_)
      · simp only [List.length_drop]; omega
      · exact Nat.le_refl _

/-- State of a `Cabide<T>` handle (src/lib.rs): the bound file, the cached
next free block, and the free-run index (BTreeMap as a sorted assoc list). -/
structure Cabide where
  file : List Nat
  next_block : Nat
  empty_blocks : List (Nat × List Nat)
deriving DecidableEq, Repr

/-- BTreeMap entry(size).and_modify(push idx).or_insert(vec![idx]) - keeps the
assoc list sorted ascending by key, appends to an existing bucket's Vec. -/
def insertEB (eb : List (Nat × List Nat)) (size idx : Nat) : List (Nat × List Nat) :=
  match eb with
  | [] => [(size, [idx])]
  | (k, v) :: rest =>
    if size < k then (size, [idx]) :: (k, v) :: rest
    else if size = k then (k, v ++ [idx]) :: rest
    else (k, v) :: insertEB rest size idx

/-- BTreeMap::remove(&key). -/
def eraseEB (eb : List (Nat × List Nat)) (key : Nat) : List (Nat × List Nat) :=
  match eb with
  | [] => []
  | (k, v) :: rest => if k = key then rest else (k, v) :: eraseEB rest key

/-- Writing `bytes` at byte offset `off` of a file through a seek: bytes
between the old end of file and the seek target read back as zeros. -/
def writeAt (file : List Nat) (off : Nat) (bytes : List Nat) : List Nat :=
  file.take off ++ List.replicate (off - file.length) 0 ++ bytes
    ++ file.drop (off + bytes.length)

/-- File::set_len (zero-fills on extension). -/
def setLen (file : List Nat) (n : Nat) : List Nat :=
  file.take n ++ List.replicate (n - file.length) 0

/-- The bytes produced by the chunk loop of Cabide::write (src/lib.rs lines
574-582): each chunk becomes metadata byte, chunk, END_BYTE. -/
def writeChunksLoop (cs : List (List Nat)) (meta : Nat) : List Nat :=
  match cs with
  | [] => []
  | c :: rest => ([meta] ++ c ++ [END_BYTE]) ++ writeChunksLoop rest tagCont

/-- All bytes Cabide::write emits for one encoded record: the chunk loop
output followed by the Empty-byte padding of the last block (src/lib.rs lines
584-589). -/
def writeRecord (raw : List Nat) : List Nat :=
  let body := writeChunksLoop (chunksOf CONTENT_SIZE raw) tagStart
  body ++ List.replicate ((chunksOf CONTENT_SIZE raw).length * BLOCK_SIZE - body.length) tagEmpty

/-- The free-run lookup loop of Cabide::write (src/lib.rs lines 533-546):
walks the BTreeMap in ascending key order; on the first bucket whose run
covers the payload it pops the last starting offset and breaks, remembering
the run remainder; an exhausted qualifying bucket is remembered (once) for
deletion.  Returns (starting_block?, remaining_run?, delete_bucket?, map). -/
def allocScan (rawLen bn : Nat) (eb : List (Nat × List Nat)) :
    Option Nat × Option (Nat × Nat) × Option Nat × List (Nat × List Nat) :=
  match eb with
  | [] => (none, none, none, [])
  | (k, v) :: rest =>
    if k * CONTENT_SIZE ≥ rawLen then
      match v.getLast? with
      | some sb => (some sb, some (k - bn, sb + bn), none, (k, v.dropLast) :: rest)
      | none =>
        let r := allocScan rawLen bn rest
        (r.1, r.2.1, some k, (k, v) :: r.2.2.2)
    else
      let r := allocScan rawLen bn rest
      (r.1, r.2.1, r.2.2.1, (k, v) :: r.2.2.2)

/-- Cabide::write (src/lib.rs lines 527-591) applied to the already encoded
bytes of the record.  Note the source computes `blocks_needed` with integer
(floor) division while the cursor fall-through advances by the ceiling. -/
def Cabide.write (cbd : Cabide) (raw : List Nat) : Cabide × Nat :=
  let bn := raw.length / CONTENT_SIZE
  let r := allocScan raw.length bn cbd.empty_blocks
  let eb1 := r.2.2.2
  let eb2 := match r.2.2.1 with
    | some k => eraseEB eb1 k
    | none => eb1
  let eb3 := match r.2.1 with
    | some bi => insertEB eb2 bi.1 bi.2
    | none => eb2
  match r.1 with
  | some b =>
    (⟨writeAt cbd.file (b * BLOCK_SIZE) (writeRecord raw), cbd.next_block, eb3⟩, b)
  | none =>
    let b := cbd.next_block
    (⟨writeAt cbd.file (b * BLOCK_SIZE) (writeRecord raw),
      cbd.next_block + ceilDiv raw.length CONTENT_SIZE, eb3⟩, b)

/-- Overwrite the metadata byte of a block with Metadata::Empty. -/
def zeroTag (b : List Nat) : List Nat :=
  match b with
  | [] => []
  | _ :: rest => tagEmpty :: rest

/-- The block loop of Cabide::read_update_metadata (src/lib.rs lines 250-292)
over the file viewed from the starting block as BLOCK_SIZE-byte windows.
Returns (content or first-block error, blocks visited, blocks after the
optional tag overwrite). -/
def readLoop (flag : Bool) (bs : List (List Nat)) (expected : Nat)
    (content : List Nat) : Except CbdError (List Nat) × Nat × List (List Nat) :=
  match bs with
  | [] => (Except.ok content, 0, [])
  | [] :: rest => (Except.ok content, 0, [] :: rest)
  | (m :: body) :: rest =>
    if content.isEmpty ∧ m ≠ expected then
      if m = tagEmpty then (Except.error CbdError.EmptyBlock, 0, (m :: body) :: rest)
      else (Except.error CbdError.ContinuationBlock, 0, (m :: body) :: rest)
    else if m ≠ expected then (Except.ok content, 0, (m :: body) :: rest)
    else
      let r := readLoop flag rest tagCont (content ++ body.take CONTENT_SIZE)
      (r.1, r.2.1 + 1, (if flag then zeroTag (m :: body) else m :: body) :: r.2.2)

/-- The padding strip loop of read_update_metadata (src/lib.rs lines 302-304). -/
def stripZeros (l : List Nat) : List Nat :=
  (l.reverse.dropWhile (fun x => x = tagEmpty)).reverse

/-- The END_BYTE strip of read_update_metadata (src/lib.rs lines 308-310). -/
def stripEnd (l : List Nat) : List Nat :=
  if l.getLast? = some END_BYTE then l.dropLast else l

/-- Cabide::read_update_metadata (src/lib.rs lines 239-315), parameterized by
the external decoder.  With `flag` set (remove) every visited block's tag is
overwritten with Empty and the visited run is pushed into the free-run index. -/
def Cabide.readUM {α : Type} (dec : List Nat → Option α) (cbd : Cabide)
    (block : Nat) (flag : Bool) : Except CbdError α × Cabide :=
  let r := readLoop flag (chunksOf BLOCK_SIZE (cbd.file.drop (block * BLOCK_SIZE))) tagStart []
  match r.1 with
  | Except.error e => (Except.error e, cbd)
  | Except.ok content =>
    let cbd2 : Cabide :=
      { file := cbd.file.take (block * BLOCK_SIZE) ++ r.2.2.flatten
        next_block := cbd.next_block
        empty_blocks :=
          if flag ∧ r.2.1 ≠ 0 then insertEB cbd.empty_blocks r.2.1 block
          else cbd.empty_blocks }
    match dec (stripEnd (stripZeros content)) with
    | some v => (Except.ok v, cbd2)
    | none => (Except.error CbdError.CorruptedBlock, cbd2)

/-- Cabide::read (src/lib.rs line 365). -/
def Cabide.read {α : Type} (dec : List Nat → Option α) (cbd : Cabide) (block : Nat) :
    Except CbdError α × Cabide :=
  Cabide.readUM dec cbd block false

/-- Cabide::remove (src/lib.rs line 341). -/
def Cabide.remove {α : Type} (dec : List Nat → Option α) (cbd : Cabide) (block : Nat) :
    Except CbdError α × Cabide :=
  Cabide.readUM dec cbd block true

/-- Cabide::blocks (src/lib.rs line 233): file length in blocks, rounded up. -/
def Cabide.blocks (cbd : Cabide) : Nat := ceilDiv cbd.file.length BLOCK_SIZE

/-- The recovery scan of Cabide::new (src/lib.rs lines 174-200): walks blocks
0..next_block reading each metadata byte, chaining maximal Empty runs into the
free-run index.  A run still open when the loop ends is dropped, exactly as in
the source. -/
def openScanAux (file : List Nat) (remaining curr : Nat)
    (chain : Option (Nat × Nat)) (eb : List (Nat × List Nat)) : List (Nat × List Nat) :=
  match remaining with
  | 0 => eb
  | rem + 1 =>
    if file.length ≤ curr * BLOCK_SIZE then eb
    else
      let m := file.getD (curr * BLOCK_SIZE) 0
      match chain with
      | some st =>
        if m = tagEmpty then openScanAux file rem (curr + 1) (some (st.1, st.2 + 1)) eb
        else openScanAux file rem (curr + 1) none (insertEB eb st.2 st.1)
      | none =>
        if m = tagEmpty then openScanAux file rem (curr + 1) (some (curr, 1)) eb
        else openScanAux file rem (curr + 1) none eb

/-- Cabide::new (src/lib.rs lines 152-218): rebuilds next_block and the
free-run index from an existing file's bytes, then optionally pre-extends the
file; a requested size not above the current one is ignored. -/
def Cabide.new (file : List Nat) (blocks : Option Nat) : Cabide :=
  if file.length = 0 then
    match blocks with
    | some b => ⟨setLen file (b * BLOCK_SIZE), 0, []⟩
    | none => ⟨file, 0, []⟩
  else
    let next_block := ceilDiv file.length BLOCK_SIZE
    let blocks2 := blocks.filter (fun b => next_block - 1 < b)
    let eb := openScanAux file next_block 0 none []
    match blocks2 with
    | some b => ⟨setLen file (b * BLOCK_SIZE), next_block, eb⟩
    | none => ⟨file, next_block, eb⟩

/-- The scan loop of Cabide::first (src/lib.rs lines 421-435): EmptyBlock and
ContinuationBlock are skipped, any other read failure aborts with None. -/
def firstLoop {α : Type} (dec : List Nat → Option α) (cbd : Cabide) (p : α → Bool) :
    List Nat → Option α
  | [] => none
  | b :: bs =>
    match (Cabide.read dec cbd b).1 with
    | Except.ok v => if p v then some v else firstLoop dec cbd p bs
    | Except.error CbdError.EmptyBlock => firstLoop dec cbd p bs
    | Except.error CbdError.ContinuationBlock => firstLoop dec cbd p bs
    | Except.error _ => none

/-- Cabide::first (src/lib.rs lines 421-435). -/
def Cabide.first {α : Type} (dec : List Nat → Option α) (cbd : Cabide) (p : α → Bool) :
    Option α :=
  firstLoop dec cbd p (List.range cbd.blocks)

/-- The scan loop of Cabide::filter (src/lib.rs lines 482-498): every read
failure, of any kind, is skipped. -/
def filterLoop {α : Type} (dec : List Nat → Option α) (cbd : Cabide) (p : α → Bool) :
    List Nat → List α
  | [] => []
  | b :: bs =>
    match (Cabide.read dec cbd b).1 with
    | Except.ok v => if p v then v :: filterLoop dec cbd p bs else filterLoop dec cbd p bs
    | Except.error CbdError.EmptyBlock => filterLoop dec cbd p bs
    | Except.error CbdError.ContinuationBlock => filterLoop dec cbd p bs
    | Except.error _ => filterLoop dec cbd p bs

/-- Cabide::filter (src/lib.rs lines 482-498). -/
def Cabide.filter {α : Type} (dec : List Nat → Option α) (cbd : Cabide) (p : α → Bool) :
    List α :=
  filterLoop dec cbd p (List.range cbd.blocks)

/-- State of a HashCabide<T> (src/hash.rs): the shard map from hash byte to
block store (the folder path itself carries no state we need). -/
structure HashCabide where
  cabides : List (Nat × Cabide)
deriving DecidableEq, Repr

/-- HashMap::get by key. -/
def lookupHC (m : List (Nat × Cabide)) (k : Nat) : Option Cabide :=
  match m with
  | [] => none
  | (h, c) :: rest => if h = k then some c else lookupHC rest k

/-- HashCabide::new (src/hash.rs lines 12-29): probes the folder for shard
files named 0,1,2,... - the loop is `for value in 0..255`, so value 255 is
never probed.  The folder is modelled as a map from shard name to the file's
bytes (None when no such file exists). -/
def HashCabide.new (folder : Nat → Option (List Nat)) : HashCabide :=
  ⟨(List.range 255).filterMap (fun v => (folder v).map (fun f => (v, Cabide.new f none)))⟩

/-- HashCabide::read (src/hash.rs lines 62-67). -/
def HashCabide.read {α : Type} (dec : List Nat → Option α) (hc : HashCabide)
    (hash block : Nat) : Except CbdError α :=
  match lookupHC hc.cabides hash with
  | none => Except.error CbdError.NotExistant
  | some c => (Cabide.read dec c block).1

/-- HashCabide::remove (src/hash.rs lines 79-84), also returning the shard
map with the mutated shard written back. -/
def HashCabide.remove {α : Type} (dec : List Nat → Option α) (hc : HashCabide)
    (hash block : Nat) : Except CbdError α × HashCabide :=
  match lookupHC hc.cabides hash with
  | none => (Except.error CbdError.NotExistant, hc)
  | some c =>
    let r := Cabide.remove dec c block
    (r.1, ⟨hc.cabides.map (fun e => if e.1 = hash then (e.1, r.2) else e)⟩)

/-- BUFFER_MAX_BLOCKS (src/order.rs line 5). -/
def BUFFER_MAX_BLOCKS : Nat := 200

/-- Modelled from the spec: `Cabide::truncate` is called by OrderCabide
(src/order.rs lines 66, 72, 73) but its definition is not under src/; spec
section 4.5 says the flush is to "truncate buffer and scratch to empty", so
truncation resets the store to an empty file with a fresh cursor and index. -/
def Cabide.truncate (_cbd : Cabide) : Cabide := ⟨[], 0, []⟩

/-- State of an OrderCabide (src/order.rs): append buffer, sorted main store
and transient scratch store.  The caller-supplied key extractor and comparator
are passed to each operation. -/
structure OrderCabide where
  buffer : Cabide
  main : Cabide
  scratch : Cabide
deriving DecidableEq, Repr

/-- OrderCabide::write (src/order.rs lines 54-76): append to the buffer;
once the buffer holds BUFFER_MAX_BLOCKS blocks or more, read main and buffer
out in full, sort the concatenation by the comparator on extracted keys
(stable, as Rust sort_by), rewrite scratch, copy scratch's bytes over main's
file, and truncate buffer and scratch. -/
def OrderCabide.write {α κ : Type} (enc : α → List Nat) (dec : List Nat → Option α)
    (extract : α → κ) (ord : κ → κ → Ordering) (oc : OrderCabide) (v : α) : OrderCabide :=
  let buffer1 := (oc.buffer.write (enc v)).1
  if BUFFER_MAX_BLOCKS ≤ buffer1.blocks then
    let all := Cabide.filter dec oc.main (fun _ => true)
      ++ Cabide.filter dec buffer1 (fun _ => true)
    let sorted := all.mergeSort (fun a b => ord (extract a) (extract b) ≠ Ordering.gt)
    let scratch1 := sorted.foldl (fun c w => (c.write (enc w)).1) (Cabide.truncate oc.scratch)
    { buffer := Cabide.truncate buffer1
      main := { oc.main with file := scratch1.file }
      scratch := Cabide.truncate scratch1 }
  else
    { oc with buffer := buffer1 }

/-- Probe direction of the positional search (src/order.rs lines 79-83). -/
inductive Going where
  | Left : Going
  | Right : Going
deriving DecidableEq, Repr

/-- Mutable state of the positional probe loop of OrderCabide::first
(src/order.rs lines 98-100): current block, direction, and whether any record
has been decoded yet. -/
structure PState where
  block : Nat
  going : Going
  found : Bool
deriving DecidableEq, Repr

/-- One iteration of the positional probe loop of OrderCabide::first
(src/order.rs lines 101-142): either the loop returns (Sum.inr) or proceeds
to the next state (Sum.inl). -/
def probeStep {α κ : Type} (dec : List Nat → Option α) (extract : α → κ)
    (order_by : κ → Ordering) (main : Cabide) (blocks : Nat) (s : PState) :
    PState ⊕ Option α :=
  match (Cabide.read dec main s.block).1 with
  | Except.ok data =>
    match order_by (extract data) with
    | Ordering.eq => Sum.inr (some data)
    | Ordering.lt =>
      if s.block = blocks then Sum.inr none
      else Sum.inl ⟨s.block + (blocks - s.block) / 2, Going.Right, true⟩
    | Ordering.gt =>
      if s.block = 0 then Sum.inr none
      else Sum.inl ⟨s.block - s.block / 2, Going.Left, true⟩
  | Except.error _ =>
    if s.going = Going.Left then
      if s.block = 0 then Sum.inr none
      else Sum.inl ⟨s.block - 1, s.going, s.found⟩
    else
      if s.block = blocks then
        if s.found then Sum.inr none
        else Sum.inl ⟨blocks / 2, Going.Left, s.found⟩
      else Sum.inl ⟨s.block + 1, s.going, s.found⟩

/-- Runs the probe loop for at most n iterations: Sum.inr r means the loop
returned r, Sum.inl s means it is still going after n iterations. -/
def probeRun {α κ : Type} (dec : List Nat → Option α) (extract : α → κ)
    (order_by : κ → Ordering) (main : Cabide) (blocks : Nat) (n : Nat) (s : PState) :
    PState ⊕ Option α :=
  match n with
  | 0 => Sum.inl s
  | m + 1 =>
    match probeStep dec extract order_by main blocks s with
    | Sum.inr r => Sum.inr r
    | Sum.inl s2 => probeRun dec extract order_by main blocks m s2

/-- Initial probe state (src/order.rs lines 98-100): the middle block, going
Right, nothing found yet. -/
def probeInit (blocks : Nat) : PState := ⟨blocks / 2, Going.Right, false⟩

/-- Spec section 7 wording: EmptyBlock and ContinuationBlock are
expected-and-skipped scan outcomes; everything else is a genuine failure. -/
def skippableOut {α : Type} (o : Except CbdError α) : Bool :=
  match o with
  | Except.ok _ => true
  | Except.error CbdError.EmptyBlock => true
  | Except.error CbdError.ContinuationBlock => true
  | Except.error _ => false

/-- A scan outcome that is a decoded value satisfying the predicate. -/
def okMatch {α : Type} (p : α → Bool) (o : Except CbdError α) : Option α :=
  match o with
  | Except.ok v => if p v then some v else none
  | Except.error _ => none

/-- Spec-side restatement of the `first` scan (spec sections 4.3 and 7): among
the block outcomes scanned from block 0 upward, the first match occurring
strictly before the first non-skippable failure; a non-skippable failure
aborts the scan. -/
def firstSpec {α : Type} (dec : List Nat → Option α) (cbd : Cabide) (p : α → Bool) :
    Option α :=
  ((((List.range cbd.blocks).map (fun b => (Cabide.read dec cbd b).1)).takeWhile
    skippableOut).filterMap (okMatch p)).head?

/-- Spec-side restatement of the `filter` scan (spec sections 4.3 and 7): all
matches over the whole block range, every failure outcome skipped. -/
def filterSpec {α : Type} (dec : List Nat → Option α) (cbd : Cabide) (p : α → Bool) :
    List α :=
  ((List.range cbd.blocks).map (fun b => (Cabide.read dec cbd b).1)).filterMap (okMatch p)

/-! Basic facts about the chunked view of a file. -/

theorem chunksGo_flatten (n : Nat) (hn : n ≠ 0) :
    ∀ (fuel : Nat) (l : List Nat), l.length ≤ fuel → (chunksGo n fuel l).flatten = l := by
  intro fuel
  induction fuel with
  | zero =>
    intro l hl
    have : l = [] := List.eq_nil_of_length_eq_zero (Nat.le_zero.mp hl)
    subst this; simp [chunksGo]
  | succ f ih =>
    intro l hl
    rcases em (l = []) with h | h
    · subst h; simp [chunksGo]
    · have : ¬(l = [] ∨ n = 0) := by simp [h, hn]
      simp only [chunksGo, if_neg this, List.flatten_cons]
      have hlen : 0 < l.length := List.length_pos.mpr h
      have : (l.drop n).length ≤ f := by
        simp only [List.length_drop]; omega
      rw [ih (l.drop n) this, List.take_append_drop]

/-- Re-assembling the chunked view gives back the file. -/
theorem chunksOf_flatten (n : Nat) (hn : n ≠ 0) (l : List Nat) :
    (chunksOf n l).flatten = l :=
  chunksGo_flatten n hn l.length l (Nat.le_refl _)

/-- Chunking splits off a first chunk of exactly n elements. -/
theorem chunksOf_append (n : Nat) (hn : n ≠ 0) (a l : List Nat) (ha : a.length = n) :
    chunksOf n (a ++ l) = a :: chunksOf n l := by
  rw [chunksOf_eq]
  have hne : ¬(a ++ l = [] ∨ n = 0) := by
    rintro (h | h)
    · have : a = [] := (List.append_eq_nil.mp h).1
      subst this; simp at ha; omega
    · exact hn h
  rw [if_neg hne]
  congr 1
  · rw [← ha, List.take_left]
  · rw [← ha, List.drop_left]

theorem chunksOf_nil (n : Nat) : chunksOf n [] = [] := by
  rw [chunksOf_eq]; simp

/-- readLoop with the overwrite flag off leaves every block unchanged. -/
theorem readLoop_false_blocks (bs : List (List Nat)) (e : Nat) (c : List Nat) :
    (readLoop false bs e c).2.2 = bs := by
  induction bs generalizing e c with
  | nil => simp [readLoop]
  | cons b rest ih =>
    cases b with
    | nil => simp [readLoop]
    | cons m body =>
      simp only [readLoop]
      by_cases h1 : c.isEmpty = true ∧ m ≠ e
      · rw [if_pos h1]
        by_cases h2 : m = tagEmpty <;> simp [h2]
      · rw [if_neg h1]
        by_cases h2 : m = e
        · have hne : ¬(m ≠ e) := by simp [h2]
          rw [if_neg hne]
          simp [ih]
        · rw [if_pos h2]

/-- C10 helper: the state readUM hands back with the flag off is the input
state. -/
theorem readUM_false_state {α : Type} (dec : List Nat → Option α) (cbd : Cabide)
    (block : Nat) : (Cabide.readUM dec cbd block false).2 = cbd := by
  obtain ⟨f, nb, eb⟩ := cbd
  unfold Cabide.readUM
  have hbs := readLoop_false_blocks (chunksOf BLOCK_SIZE (f.drop (block * BLOCK_SIZE))) tagStart []
  have hfile : f.take (block * BLOCK_SIZE) ++
      (readLoop false (chunksOf BLOCK_SIZE (f.drop (block * BLOCK_SIZE))) tagStart []).2.2.flatten
      = f := by
    rw [hbs, chunksOf_flatten BLOCK_SIZE (by decide), List.take_append_drop]
  dsimp only
  split
  · rfl
  · split <;> simp [hfile]

/-- C10: Cabide::read is effect-free - for every handle, whatever the outcome
(success, EmptyBlock, ContinuationBlock or CorruptedBlock), the store handed
back is the input store: same file bytes, same free-run index, same append
cursor. -/
theorem c10_read_effect_free {α : Type} (dec : List Nat → Option α) (cbd : Cabide)
    (block : Nat) : (Cabide.read dec cbd block).2 = cbd :=
  readUM_false_state dec cbd block

instance {e a : Type} [DecidableEq e] [DecidableEq a] : DecidableEq (Except e a) := fun x y =>
  match x, y with
  | Except.ok u, Except.ok v =>
    if h : u = v then isTrue (by rw [h]) else isFalse (by simp [h])
  | Except.error u, Except.error v =>
    if h : u = v then isTrue (by rw [h]) else isFalse (by simp [h])
  | Except.ok _, Except.error _ => isFalse (by simp)
  | Except.error _, Except.ok _ => isFalse (by simp)

/-- Identity byte codec: the bound record type is the raw byte list itself. -/
def idDec : List Nat → Option (List Nat) := fun l => some l

/-- Identity byte encoder matching `idDec`. -/
def idEnc : List Nat → List Nat := fun l => l

/-- C1 (counterexample): on a fresh store, a value whose encoding is exactly
CONTENT_SIZE bytes and ends in the Empty tag value 0 does not round trip:
the trailing zeros are stripped as padding and read returns the empty byte
string instead. -/
theorem c1_counterexample :
    (Cabide.read idDec ((Cabide.new [] none).write (idEnc (List.replicate 28 0))).1
        ((Cabide.new [] none).write (idEnc (List.replicate 28 0))).2).1
      = Except.ok [] ∧
    ¬((Cabide.read idDec ((Cabide.new [] none).write (idEnc (List.replicate 28 0))).1
        ((Cabide.new [] none).write (idEnc (List.replicate 28 0))).2).1
      = Except.ok (List.replicate 28 0)) := by
  decide

/-- C2: evaluating Cabide::write at the failing input.  The store's free-run
index holds one run of 2 blocks starting at block 10 and the record encodes to
1 byte, so N = 1 block is written at block 10; the source's floor division
makes blocks_needed = 0, so the run re-inserted into the index is (length 2,
start 10) - it contains the freshly written block 10 instead of being the
disjoint tail (length 1, start 11) the claim describes. -/
theorem c2_eval_failing_input :
    (Cabide.write ⟨List.replicate 360 0, 12, [(2, [10])]⟩ [7]).2 = 10 ∧
    (Cabide.write ⟨List.replicate 360 0, 12, [(2, [10])]⟩ [7]).1.empty_blocks
      = [(2, [10])] := by
  decide

/-- C4 (counterexample): writing a 28-byte record into a store whose free-run
index is exactly one 1-block run pops that run's only offset and leaves the
bucket behind as an empty entry, so immediately after the public write the
index maps key 1 to the empty list (it also gains a 0-length run entry from
the floor-division remainder). -/
theorem c4_counterexample :
    ((1 : Nat), ([] : List Nat)) ∈
      (Cabide.write ⟨List.replicate 360 0, 12, [(1, [5])]⟩ (List.replicate 28 1)).1.empty_blocks := by
  decide

set_option maxRecDepth 40000 in
/-- C7: evaluating HashCabide::new at the failing input.  The probe loop is
`for value in 0..255`, so a folder whose only shard file is named 255 opens
with no shards at all, while a folder containing every shard file 0..=255
opens exactly the shards 0..=254. -/
theorem c7_eval_shard_255_skipped :
    (HashCabide.new (fun v => if v = 255 then some [] else none)).cabides = [] ∧
    (HashCabide.new (fun _ => some [])).cabides.map Prod.fst = List.range 255 := by
  decide

/-! The first/filter scan characterizations (claim C9). -/

theorem firstLoop_spec {α : Type} (dec : List Nat → Option α) (cbd : Cabide)
    (p : α → Bool) (l : List Nat) :
    firstLoop dec cbd p l
      = (((l.map (fun b => (Cabide.read dec cbd b).1)).takeWhile
          skippableOut).filterMap (okMatch p)).head? := by
  induction l with
  | nil => rfl
  | cons b bs ih =>
    simp only [List.map_cons]
    cases hr : (Cabide.read dec cbd b).1 with
    | ok v =>
      rw [List.takeWhile_cons_of_pos (by simp [skippableOut])]
      simp only [firstLoop, hr, List.filterMap_cons]
      cases hp : p v with
      | true => simp [okMatch, hp]
      | false => simp [okMatch, hp, ih]
    | error e =>
      cases e with
      | EmptyBlock =>
        rw [List.takeWhile_cons_of_pos (by simp [skippableOut])]
        simp only [firstLoop, hr, List.filterMap_cons]
        simp [okMatch, ih]
      | ContinuationBlock =>
        rw [List.takeWhile_cons_of_pos (by simp [skippableOut])]
        simp only [firstLoop, hr, List.filterMap_cons]
        simp [okMatch, ih]
      | IoErr =>
        rw [List.takeWhile_cons_of_neg (by simp [skippableOut])]
        simp [firstLoop, hr]
      | CorruptedBlock =>
        rw [List.takeWhile_cons_of_neg (by simp [skippableOut])]
        simp [firstLoop, hr]
      | NotExistant =>
        rw [List.takeWhile_cons_of_neg (by simp [skippableOut])]
        simp [firstLoop, hr]

theorem filterLoop_spec {α : Type} (dec : List Nat → Option α) (cbd : Cabide)
    (p : α → Bool) (l : List Nat) :
    filterLoop dec cbd p l
      = (l.map (fun b => (Cabide.read dec cbd b).1)).filterMap (okMatch p) := by
  induction l with
  | nil => rfl
  | cons b bs ih =>
    simp only [List.map_cons, List.filterMap_cons]
    cases hr : (Cabide.read dec cbd b).1 with
    | ok v =>
      simp only [filterLoop, hr]
      cases hp : p v with
      | true => simp [okMatch, hp, ih]
      | false => simp [okMatch, hp, ih]
    | error e =>
      cases e <;> simp [filterLoop, hr, okMatch, ih]

/-- C9: during Cabide::first's block-0-upward scan, EmptyBlock and
ContinuationBlock outcomes are skipped while any other decode failure aborts
the whole scan with None (the scan result is the first match occurring before
the first non-skippable failure); Cabide::filter's identical scan instead
skips every failure and collects all matches over the whole range. -/
theorem c9_first_filter_asymmetry {α : Type} (dec : List Nat → Option α)
    (cbd : Cabide) (p : α → Bool) :
    Cabide.first dec cbd p = firstSpec dec cbd p ∧
    Cabide.filter dec cbd p = filterSpec dec cbd p :=
  ⟨firstLoop_spec dec cbd p (List.range cbd.blocks),
   filterLoop_spec dec cbd p (List.range cbd.blocks)⟩

/-! Shard lookup errors (claim C8). -/

theorem readLoop_error_cases (flag : Bool) (bs : List (List Nat)) (e : Nat)
    (c : List Nat) (err : CbdError)
    (h : (readLoop flag bs e c).1 = Except.error err) :
    err = CbdError.EmptyBlock ∨ err = CbdError.ContinuationBlock := by
  induction bs generalizing e c with
  | nil => simp [readLoop] at h
  | cons b rest ih =>
    cases b with
    | nil => simp [readLoop] at h
    | cons m body =>
      by_cases h1 : c.isEmpty = true ∧ m ≠ e
      · obtain ⟨hce, hme⟩ := h1
        by_cases h2 : m = tagEmpty
        · subst h2
          simp only [readLoop, if_pos (And.intro hce hme), if_pos rfl] at h
          exact Or.inl (Except.error.injEq _ _ ▸ h).symm
        · simp only [readLoop, if_pos (And.intro hce hme), if_neg h2] at h
          exact Or.inr (Except.error.injEq _ _ ▸ h).symm
      · by_cases h2 : m = e
        · have hne : ¬(m ≠ e) := by simp [h2]
          simp only [readLoop, if_neg h1, if_neg hne] at h
          exact ih tagCont (c ++ body.take CONTENT_SIZE) h
        · have hc : c ≠ [] := by
            intro hce
            exact h1 ⟨by simp [hce], h2⟩
          simp [readLoop, h1, h2, hc] at h

/-- A block store read or remove never reports the shard lookup error. -/
theorem readUM_not_shard_error {α : Type} (dec : List Nat → Option α)
    (cbd : Cabide) (block : Nat) (flag : Bool) :
    (Cabide.readUM dec cbd block flag).1 ≠ Except.error CbdError.NotExistant := by
  unfold Cabide.readUM
  dsimp only
  split
  · rename_i e he
    intro hc
    rcases readLoop_error_cases flag _ tagStart [] e he with h | h <;>
      simp [h] at hc
  · split <;> simp

/-- C8: HashCabide::read and HashCabide::remove fail with the shard-not-found
error exactly when no shard is materialized for the hash; otherwise they
delegate to that shard's read/remove (which can never itself produce the
shard-not-found error); and on a store whose only shard is 0, reading
handle (1, 0) fails with exactly this error. -/
theorem c8_shard_not_found {α : Type} (dec : List Nat → Option α)
    (hc : HashCabide) (hash block : Nat) :
    (HashCabide.read dec hc hash block = Except.error CbdError.NotExistant
      ↔ lookupHC hc.cabides hash = none) ∧
    ((HashCabide.remove dec hc hash block).1 = Except.error CbdError.NotExistant
      ↔ lookupHC hc.cabides hash = none) ∧
    (∀ c : Cabide, lookupHC hc.cabides hash = some c →
      HashCabide.read dec hc hash block = (Cabide.read dec c block).1 ∧
      (HashCabide.remove dec hc hash block).1 = (Cabide.remove dec c block).1) ∧
    HashCabide.read dec ⟨[(0, Cabide.new [] none)]⟩ 1 0
      = Except.error CbdError.NotExistant := by
  refine ⟨?_, ?_, ?_, ?_⟩
  · unfold HashCabide.read
    cases hl : lookupHC hc.cabides hash with
    | none => simp
    | some c =>
      constructor
      · intro h
        exact absurd h (readUM_not_shard_error dec c block false)
      · intro h
        cases h
  · unfold HashCabide.remove
    cases hl : lookupHC hc.cabides hash with
    | none => simp
    | some c =>
      constructor
      · intro h
        exact absurd h (readUM_not_shard_error dec c block true)
      · intro h
        cases h
  · intro c hl
    unfold HashCabide.read HashCabide.remove
    rw [hl]
    exact ⟨rfl, rfl⟩
  · rfl

/-- C8 witness: on a concrete one-shard store the shard-not-found criterion
and the delegation clause hold at hash 0. -/
theorem c8_witness :
    lookupHC (HashCabide.mk [(0, Cabide.new [] none)]).cabides 0
        = some (Cabide.new [] none) ∧
    HashCabide.read idDec (HashCabide.mk [(0, Cabide.new [] none)]) 0 0
        = (Cabide.read idDec (Cabide.new [] none) 0).1 :=
  ⟨by decide,
   ((c8_shard_not_found idDec (HashCabide.mk [(0, Cabide.new [] none)]) 0 0).2.2.1
     (Cabide.new [] none) (by decide)).1⟩

/-! The positional probe loop (claim C6). -/

/-- The probe fixed point: when the record decoded at block blocks - 1
compares Less, the probe state does not change. -/
theorem probeStep_fixed {α κ : Type} (dec : List Nat → Option α) (extract : α → κ)
    (order_by : κ → Ordering) (main : Cabide) (blocks : Nat) (hb : 1 ≤ blocks)
    (v : α) (hv : (Cabide.read dec main (blocks - 1)).1 = Except.ok v)
    (hlt : order_by (extract v) = Ordering.lt) (g : Going) (f : Bool) :
    probeStep dec extract order_by main blocks ⟨blocks - 1, g, f⟩
      = Sum.inl ⟨blocks - 1, Going.Right, true⟩ := by
  unfold probeStep
  rw [hv]
  simp only [hlt]
  have hne : ¬(blocks - 1 = blocks) := by omega
  rw [if_neg hne]
  have : (blocks - (blocks - 1)) / 2 = 0 := by
    have : blocks - (blocks - 1) = 1 := by omega
    rw [this]
  rw [this]
  simp

/-- Helper: started at the fixed point, the probe loop never returns. -/
theorem probeRun_fixed_ne {α κ : Type} (dec : List Nat → Option α)
    (extract : α → κ) (order_by : κ → Ordering) (main : Cabide) (blocks : Nat)
    (hb : 1 ≤ blocks) (v : α)
    (hv : (Cabide.read dec main (blocks - 1)).1 = Except.ok v)
    (hlt : order_by (extract v) = Ordering.lt) :
    ∀ (n : Nat) (g : Going) (f : Bool) (r : Option α),
      probeRun dec extract order_by main blocks n ⟨blocks - 1, g, f⟩ ≠ Sum.inr r := by
  intro n
  induction n with
  | zero => intro g f r h; simp [probeRun] at h
  | succ m ih =>
    intro g f r h
    rw [probeRun, probeStep_fixed dec extract order_by main blocks hb v hv hlt g f] at h
    exact ih Going.Right true r h

/-- C6 (amended theorem): the probe loop of OrderCabide::first is not total.
Whenever the record read at block blocks - 1 compares Less under the
comparator, the loop started at that block repeats the same state forever and
never returns. -/
theorem c6_amended_probe_not_total {α κ : Type} (dec : List Nat → Option α)
    (extract : α → κ) (order_by : κ → Ordering) (main : Cabide) (blocks : Nat)
    (hb : 1 ≤ blocks) (v : α)
    (hv : (Cabide.read dec main (blocks - 1)).1 = Except.ok v)
    (hlt : order_by (extract v) = Ordering.lt) :
    ∀ (n : Nat) (g : Going) (f : Bool) (r : Option α),
      probeRun dec extract order_by main blocks n ⟨blocks - 1, g, f⟩ ≠ Sum.inr r :=
  probeRun_fixed_ne dec extract order_by main blocks hb v hv hlt

/-- C6 (witness): concrete nonterminating instance - two blocks, the record
at block 1 decodes and always compares Less; the hypotheses of the amended
theorem hold and the loop never returns from the source's initial state. -/
theorem c6_witness :
    (1 ≤ Cabide.blocks ⟨List.replicate 30 0 ++ writeRecord [9], 2, []⟩) ∧
    (Cabide.read idDec ⟨List.replicate 30 0 ++ writeRecord [9], 2, []⟩
        (Cabide.blocks ⟨List.replicate 30 0 ++ writeRecord [9], 2, []⟩ - 1)).1
      = Except.ok [9] ∧
    ∀ (n : Nat) (g : Going) (f : Bool) (r : Option (List Nat)),
      probeRun idDec (fun l => l) (fun _ => Ordering.lt)
          ⟨List.replicate 30 0 ++ writeRecord [9], 2, []⟩
          (Cabide.blocks ⟨List.replicate 30 0 ++ writeRecord [9], 2, []⟩) n
          ⟨Cabide.blocks ⟨List.replicate 30 0 ++ writeRecord [9], 2, []⟩ - 1, g, f⟩
        ≠ Sum.inr r :=
  ⟨by decide, by decide,
   c6_amended_probe_not_total idDec (fun l => l) (fun _ => Ordering.lt)
     ⟨List.replicate 30 0 ++ writeRecord [9], 2, []⟩
     (Cabide.blocks ⟨List.replicate 30 0 ++ writeRecord [9], 2, []⟩)
     (by decide) [9] (by decide) rfl⟩

/-- C6 (counterexample): a store and comparator on which the probe loop of
OrderCabide::first, started from the source's initial state (middle block,
going Right, nothing found), never returns: the main store has 2 blocks, the
record at block 1 decodes to [9], and the comparator constantly answers Less,
so the state block = 1 repeats forever.  This refutes the claim that the loop
terminates for every store, block count and comparator. -/
theorem c6_counterexample :
    ¬ ∃ (n : Nat) (r : Option (List Nat)),
        probeRun idDec (fun l => l) (fun _ => Ordering.lt)
            ⟨List.replicate 30 0 ++ writeRecord [9], 2, []⟩
            (Cabide.blocks ⟨List.replicate 30 0 ++ writeRecord [9], 2, []⟩) n
            (probeInit (Cabide.blocks ⟨List.replicate 30 0 ++ writeRecord [9], 2, []⟩))
          = Sum.inr r := by
  rintro ⟨n, r, h⟩
  have hinit : probeInit (Cabide.blocks ⟨List.replicate 30 0 ++ writeRecord [9], 2, []⟩)
      = ⟨Cabide.blocks ⟨List.replicate 30 0 ++ writeRecord [9], 2, []⟩ - 1,
         Going.Right, false⟩ := by decide
  rw [hinit] at h
  exact probeRun_fixed_ne idDec (fun l => l) (fun _ => Ordering.lt)
    ⟨List.replicate 30 0 ++ writeRecord [9], 2, []⟩
    (Cabide.blocks ⟨List.replicate 30 0 ++ writeRecord [9], 2, []⟩)
    (by decide) [9] (by decide) rfl n Going.Right false r h

/-! The free-run index pruning invariant (claim C4). -/

/-- No bucket of the free-run index maps to an empty offset list. -/
def NoEmptyRuns (eb : List (Nat × List Nat)) : Prop :=
  ∀ p ∈ eb, p.2 ≠ []

instance (eb : List (Nat × List Nat)) : Decidable (NoEmptyRuns eb) := by
  unfold NoEmptyRuns
  infer_instance

theorem insertEB_noEmptyRuns (eb : List (Nat × List Nat)) (size idx : Nat)
    (h : NoEmptyRuns eb) : NoEmptyRuns (insertEB eb size idx) := by
  induction eb with
  | nil =>
    intro p hp
    simp only [insertEB, List.mem_singleton] at hp
    subst hp
    simp
  | cons kv rest ih =>
    obtain ⟨k, w⟩ := kv
    intro p hp
    simp only [insertEB] at hp
    by_cases h1 : size < k
    · rw [if_pos h1] at hp
      rcases List.mem_cons.mp hp with h2 | hp2
      · subst h2; simp
      · rcases List.mem_cons.mp hp2 with h3 | hp3
        · subst h3
          exact h (k, w) (List.mem_cons_self _ _)
        · exact h p (List.mem_cons_of_mem _ hp3)
    · rw [if_neg h1] at hp
      by_cases h2 : size = k
      · rw [if_pos h2] at hp
        rcases List.mem_cons.mp hp with h3 | hp3
        · subst h3; simp
        · exact h p (List.mem_cons_of_mem _ hp3)
      · rw [if_neg h2] at hp
        rcases List.mem_cons.mp hp with h3 | hp3
        · subst h3
          exact h (k, w) (List.mem_cons_self _ _)
        · exact ih (fun q hq => h q (List.mem_cons_of_mem _ hq)) p hp3

theorem openScanAux_noEmptyRuns (file : List Nat) :
    ∀ (remaining curr : Nat) (chain : Option (Nat × Nat)) (eb : List (Nat × List Nat)),
      NoEmptyRuns eb → NoEmptyRuns (openScanAux file remaining curr chain eb) := by
  intro remaining
  induction remaining with
  | zero => intro curr chain eb h; exact h
  | succ rem ih =>
    intro curr chain eb h
    rw [openScanAux]
    by_cases h1 : file.length ≤ curr * BLOCK_SIZE
    · rw [if_pos h1]; exact h
    · rw [if_neg h1]
      cases chain with
      | some st =>
        dsimp only
        by_cases h2 : file.getD (curr * BLOCK_SIZE) 0 = tagEmpty
        · rw [if_pos h2]; exact ih (curr + 1) _ eb h
        · rw [if_neg h2]
          exact ih (curr + 1) none _ (insertEB_noEmptyRuns eb st.2 st.1 h)
      | none =>
        dsimp only
        by_cases h2 : file.getD (curr * BLOCK_SIZE) 0 = tagEmpty
        · rw [if_pos h2]; exact ih (curr + 1) _ eb h
        · rw [if_neg h2]; exact ih (curr + 1) none eb h

theorem readUM_noEmptyRuns {α : Type} (dec : List Nat → Option α) (cbd : Cabide)
    (block : Nat) (flag : Bool) (h : NoEmptyRuns cbd.empty_blocks) :
    NoEmptyRuns ((Cabide.readUM dec cbd block flag).2).empty_blocks := by
  unfold Cabide.readUM
  dsimp only
  split
  · exact h
  · split
    all_goals
      dsimp only
      split
      · exact insertEB_noEmptyRuns _ _ _ h
      · exact h

set_option maxRecDepth 40000 in
/-- C4 (amended theorem): the no-empty-bucket invariant of the free-run index
holds after open (the recovery scan), after read, and after remove; it is the
write operation that can break it, by popping the last offset out of a bucket
and leaving the empty bucket behind. -/
theorem c4_amended_invariant_without_write :
    (∀ (file : List Nat) (bl : Option Nat),
      NoEmptyRuns (Cabide.new file bl).empty_blocks) ∧
    (∀ (α : Type) (dec : List Nat → Option α) (cbd : Cabide) (block : Nat),
      NoEmptyRuns cbd.empty_blocks →
        NoEmptyRuns ((Cabide.read dec cbd block).2).empty_blocks) ∧
    (∀ (α : Type) (dec : List Nat → Option α) (cbd : Cabide) (block : Nat),
      NoEmptyRuns cbd.empty_blocks →
        NoEmptyRuns ((Cabide.remove dec cbd block).2).empty_blocks) := by
  refine ⟨?_, ?_, ?_⟩
  · intro file bl
    unfold Cabide.new
    by_cases h1 : file.length = 0
    · rw [if_pos h1]
      cases bl <;> intro p hp <;> simp at hp
    · rw [if_neg h1]
      dsimp only
      have hscan := openScanAux_noEmptyRuns file (ceilDiv file.length BLOCK_SIZE) 0 none []
        (by intro p hp; simp at hp)
      split <;> exact hscan
  · intro α dec cbd block h
    exact readUM_noEmptyRuns dec cbd block false h
  · intro α dec cbd block h
    exact readUM_noEmptyRuns dec cbd block true h

/-- C4 witness: applying the amended invariant on a concrete store - a remove
of a one-block record at block 3 inserts a nonempty bucket and the invariant
is preserved. -/
theorem c4_witness :
    NoEmptyRuns (Cabide.mk (writeRecord [4] ++ writeRecord [9] ++ writeRecord [6] ++ writeRecord [2]) 4 []).empty_blocks ∧
    NoEmptyRuns ((Cabide.remove idDec
      (Cabide.mk (writeRecord [4] ++ writeRecord [9] ++ writeRecord [6] ++ writeRecord [2]) 4 []) 3).2).empty_blocks :=
  ⟨by decide,
   c4_amended_invariant_without_write.2.2 (List Nat) idDec
     (Cabide.mk (writeRecord [4] ++ writeRecord [9] ++ writeRecord [6] ++ writeRecord [2]) 4 []) 3
     (by decide)⟩

/-! Structure of the bytes a single record occupies (claims C1, C3, C5). -/

/-- The chunk-loop output of Cabide::write starting from an arbitrary
expected metadata byte (the source starts from Metadata::Start and switches
to Continuation after the first chunk). -/
def writeRecG (raw : List Nat) (meta : Nat) : List Nat :=
  writeChunksLoop (chunksOf CONTENT_SIZE raw) meta ++
    List.replicate ((chunksOf CONTENT_SIZE raw).length * BLOCK_SIZE -
      (writeChunksLoop (chunksOf CONTENT_SIZE raw) meta).length) tagEmpty

theorem writeRecord_eq_writeRecG (raw : List Nat) :
    writeRecord raw = writeRecG raw tagStart := rfl

theorem chunksOf_small (n : Nat) (l : List Nat) (h0 : l ≠ []) (h : l.length ≤ n)
    (hn : n ≠ 0) : chunksOf n l = [l] := by
  rw [chunksOf_eq, if_neg (by simp [h0, hn])]
  rw [List.take_of_length_le h, List.drop_of_length_le h, chunksOf_nil]

theorem chunksOf_big (n : Nat) (l : List Nat) (h : n < l.length) (hn : n ≠ 0) :
    chunksOf n l = l.take n :: chunksOf n (l.drop n) := by
  rw [chunksOf_eq, if_neg]
  rintro (h1 | h1)
  · subst h1; simp at h
  · exact hn h1


theorem BLOCK_SIZE_eq : BLOCK_SIZE = 30 := rfl
theorem CONTENT_SIZE_eq : CONTENT_SIZE = 28 := rfl

/-- Unfolding of the record bytes when the whole payload fits one block. -/
theorem writeRecG_small (raw : List Nat) (meta : Nat) (h0 : raw ≠ [])
    (h : raw.length ≤ CONTENT_SIZE) :
    writeRecG raw meta
      = [meta] ++ raw ++ [END_BYTE] ++ List.replicate (CONTENT_SIZE - raw.length) 0 := by
  unfold writeRecG
  rw [chunksOf_small CONTENT_SIZE raw h0 h (by decide)]
  have hlen : (writeChunksLoop [raw] meta).length = raw.length + 2 := by
    simp [writeChunksLoop]
  rw [List.length_singleton, hlen]
  have hcount : 1 * BLOCK_SIZE - (raw.length + 2) = CONTENT_SIZE - raw.length := by
    rw [BLOCK_SIZE_eq, CONTENT_SIZE_eq]; omega
  rw [hcount]
  simp [writeChunksLoop, tagEmpty, List.append_assoc]

/-- Unfolding of the record bytes when the payload spans several blocks. -/
theorem writeRecG_big (raw : List Nat) (meta : Nat) (h : CONTENT_SIZE < raw.length) :
    writeRecG raw meta
      = ([meta] ++ raw.take CONTENT_SIZE ++ [END_BYTE])
        ++ writeRecG (raw.drop CONTENT_SIZE) tagCont := by
  have htl : (raw.take CONTENT_SIZE).length = CONTENT_SIZE :=
    List.length_take_of_le (Nat.le_of_lt h)
  unfold writeRecG
  rw [chunksOf_big CONTENT_SIZE raw h (by decide)]
  have hlen : (writeChunksLoop (raw.take CONTENT_SIZE :: chunksOf CONTENT_SIZE (raw.drop CONTENT_SIZE)) meta).length
      = BLOCK_SIZE + (writeChunksLoop (chunksOf CONTENT_SIZE (raw.drop CONTENT_SIZE)) tagCont).length := by
    show (([meta] ++ raw.take CONTENT_SIZE ++ [END_BYTE]) ++
        writeChunksLoop (chunksOf CONTENT_SIZE (raw.drop CONTENT_SIZE)) tagCont).length = _
    rw [List.length_append, List.length_append, List.length_append, htl]
    simp only [BLOCK_SIZE_eq, CONTENT_SIZE_eq, List.length_singleton]
  rw [List.length_cons, hlen]
  have hcount : ((chunksOf CONTENT_SIZE (raw.drop CONTENT_SIZE)).length + 1) * BLOCK_SIZE -
      (BLOCK_SIZE + (writeChunksLoop (chunksOf CONTENT_SIZE (raw.drop CONTENT_SIZE)) tagCont).length)
      = (chunksOf CONTENT_SIZE (raw.drop CONTENT_SIZE)).length * BLOCK_SIZE -
        (writeChunksLoop (chunksOf CONTENT_SIZE (raw.drop CONTENT_SIZE)) tagCont).length := by
    simp only [BLOCK_SIZE_eq]
    omega
  rw [hcount]
  simp [writeChunksLoop, List.append_assoc]

theorem writeRecG_length (raw : List Nat) (meta : Nat) :
    (writeRecG raw meta).length = (chunksOf CONTENT_SIZE raw).length * BLOCK_SIZE := by
  by_cases h0 : raw = []
  · subst h0
    simp [writeRecG, chunksOf_nil, writeChunksLoop]
  · by_cases h : raw.length ≤ CONTENT_SIZE
    · rw [writeRecG_small raw meta h0 h, chunksOf_small CONTENT_SIZE raw h0 h (by decide)]
      rw [CONTENT_SIZE_eq] at h
      simp only [List.length_append, List.length_cons, List.length_nil,
        List.length_replicate, List.length_singleton, CONTENT_SIZE_eq, BLOCK_SIZE_eq]
      omega
    · push_neg at h
      rw [writeRecG_big raw meta h, chunksOf_big CONTENT_SIZE raw h (by decide)]
      rw [List.length_append, writeRecG_length (raw.drop CONTENT_SIZE) tagCont,
        List.length_cons]
      have htl : (raw.take CONTENT_SIZE).length = CONTENT_SIZE :=
        List.length_take_of_le (Nat.le_of_lt h)
      simp only [List.length_append, htl, List.length_singleton]
      rw [CONTENT_SIZE_eq, BLOCK_SIZE_eq]
      omega
termination_by raw.length
decreasing_by
  have hC : CONTENT_SIZE = 28 := rfl
  simp only [List.length_drop]
  rw [hC] at h ⊢
  omega

theorem writeRecG_head (raw : List Nat) (meta : Nat) (h0 : raw ≠ []) :
    (writeRecG raw meta).head? = some meta := by
  by_cases h : raw.length ≤ CONTENT_SIZE
  · rw [writeRecG_small raw meta h0 h]
    rfl
  · push_neg at h
    rw [writeRecG_big raw meta h]
    rfl

theorem readLoop_break (flag : Bool) (tail acc : List Nat) (hacc : acc ≠ [])
    (ht : ∀ x, tail.head? = some x → x ≠ tagCont) :
    (readLoop flag (chunksOf BLOCK_SIZE tail) tagCont acc).1 = Except.ok acc := by
  cases tail with
  | nil => rw [chunksOf_nil]; rfl
  | cons t ts =>
    have htt : t ≠ tagCont := ht t rfl
    rw [chunksOf_eq, if_neg (by
      rintro (hx | hx)
      · exact (List.cons_ne_nil t ts) hx
      · exact absurd hx (by decide))]
    have hB : BLOCK_SIZE = 29 + 1 := rfl
    rw [hB, List.take_succ_cons]
    simp only [readLoop]
    rw [if_neg (by simp [hacc]), if_pos htt]

/-- Decoding the framed bytes of one record (followed by anything that does
not continue it) accumulates the payload, the END_BYTE and the padding short
of the skipped final byte, for any payload whose length is not an exact
multiple of CONTENT_SIZE. -/
theorem readLoop_record (flag : Bool) (raw tail acc : List Nat) (meta : Nat)
    (hm : raw.length % CONTENT_SIZE ≠ 0)
    (ht : ∀ x, tail.head? = some x → x ≠ tagCont) :
    (readLoop flag (chunksOf BLOCK_SIZE (writeRecG raw meta ++ tail)) meta acc).1
      = Except.ok (acc ++ raw ++ [END_BYTE]
          ++ List.replicate (CONTENT_SIZE - 1 - raw.length % CONTENT_SIZE) 0) := by
  have h0 : raw ≠ [] := by
    intro he
    subst he
    simp at hm
  by_cases h : raw.length ≤ CONTENT_SIZE
  · have hlt : raw.length < CONTENT_SIZE := by
      rcases Nat.lt_or_ge raw.length CONTENT_SIZE with h1 | h1
      · exact h1
      · exfalso
        have : raw.length = CONTENT_SIZE := Nat.le_antisymm h h1
        rw [this, Nat.mod_self] at hm
        exact hm rfl
    have hmod : raw.length % CONTENT_SIZE = raw.length := Nat.mod_eq_of_lt hlt
    rw [writeRecG_small raw meta h0 h]
    have hsplit : List.replicate (CONTENT_SIZE - raw.length) (0:Nat)
        = List.replicate (CONTENT_SIZE - 1 - raw.length) 0 ++ [0] := by
      rw [← List.replicate_succ']
      rw [CONTENT_SIZE_eq] at hlt ⊢
      congr 1
      omega
    rw [hsplit]
    have hblock : ([meta] ++ raw ++ [END_BYTE]
        ++ (List.replicate (CONTENT_SIZE - 1 - raw.length) 0 ++ [0])).length = BLOCK_SIZE := by
      simp only [List.length_append, List.length_singleton, List.length_replicate,
        CONTENT_SIZE_eq, BLOCK_SIZE_eq]
      rw [CONTENT_SIZE_eq] at hlt
      omega
    rw [chunksOf_append BLOCK_SIZE (by decide) _ tail hblock]
    simp only [List.singleton_append, List.cons_append, List.nil_append]
    simp only [readLoop]
    rw [if_neg (by simp), if_neg (by simp)]
    dsimp only
    have hbody : ((raw ++ [END_BYTE] ++ (List.replicate (CONTENT_SIZE - 1 - raw.length) 0 ++ [0])).take CONTENT_SIZE)
        = raw ++ [END_BYTE] ++ List.replicate (CONTENT_SIZE - 1 - raw.length) 0 := by
      have hx : (raw ++ [END_BYTE] ++ List.replicate (CONTENT_SIZE - 1 - raw.length) (0:Nat)).length
          = CONTENT_SIZE := by
        simp only [List.length_append, List.length_singleton, List.length_replicate,
          CONTENT_SIZE_eq]
        rw [CONTENT_SIZE_eq] at hlt
        omega
      calc (raw ++ [END_BYTE] ++ (List.replicate (CONTENT_SIZE - 1 - raw.length) 0 ++ [0])).take CONTENT_SIZE
          = ((raw ++ [END_BYTE] ++ List.replicate (CONTENT_SIZE - 1 - raw.length) 0) ++ [0]).take CONTENT_SIZE := by
            simp [List.append_assoc]
        _ = (raw ++ [END_BYTE] ++ List.replicate (CONTENT_SIZE - 1 - raw.length) 0).take CONTENT_SIZE := by
            rw [List.take_append_of_le_length (by rw [hx])]
        _ = raw ++ [END_BYTE] ++ List.replicate (CONTENT_SIZE - 1 - raw.length) 0 := by
            rw [List.take_of_length_le (by rw [hx])]
    rw [hbody]
    rw [readLoop_break flag tail _ (by simp) ht]
    rw [hmod]
    simp [List.append_assoc]
  · push_neg at h
    rw [writeRecG_big raw meta h]
    rw [List.append_assoc]
    have hblock : ([meta] ++ raw.take CONTENT_SIZE ++ [END_BYTE]).length = BLOCK_SIZE := by
      rw [List.length_append, List.length_append,
        List.length_take_of_le (Nat.le_of_lt h)]
      simp only [List.length_singleton]
      decide
    rw [chunksOf_append BLOCK_SIZE (by decide) _ _ hblock]
    simp only [List.singleton_append, List.cons_append, List.nil_append]
    simp only [readLoop]
    rw [if_neg (by simp), if_neg (by simp)]
    dsimp only
    have hbody : ((raw.take CONTENT_SIZE ++ [END_BYTE]).take CONTENT_SIZE)
        = raw.take CONTENT_SIZE := by
      rw [List.take_append_of_le_length
        (by rw [List.length_take_of_le (Nat.le_of_lt h)])]
      rw [List.take_of_length_le
        (by rw [List.length_take_of_le (Nat.le_of_lt h)])]
    rw [hbody]
    have hm2 : (raw.drop CONTENT_SIZE).length % CONTENT_SIZE ≠ 0 := by
      rw [List.length_drop]
      rw [← Nat.mod_eq_sub_mod (Nat.le_of_lt h)]
      exact hm
    rw [readLoop_record flag (raw.drop CONTENT_SIZE) tail
      (acc ++ raw.take CONTENT_SIZE) tagCont hm2 ht]
    rw [List.length_drop, ← Nat.mod_eq_sub_mod (Nat.le_of_lt h)]
    have : acc ++ raw.take CONTENT_SIZE ++ raw.drop CONTENT_SIZE = acc ++ raw := by
      rw [List.append_assoc, List.take_append_drop]
    rw [this]
termination_by raw.length
decreasing_by
  have hC : CONTENT_SIZE = 28 := rfl
  simp only [List.length_drop]
  rw [hC] at h ⊢
  omega

theorem dropWhile_replicate_zero (m : Nat) (l : List Nat) :
    List.dropWhile (fun x => x = tagEmpty) (List.replicate m 0 ++ l)
      = List.dropWhile (fun x => x = tagEmpty) l := by
  induction m with
  | zero => rfl
  | succ k ih =>
    rw [List.replicate_succ, List.cons_append, List.dropWhile_cons,
      if_pos (by simp [tagEmpty])]
    exact ih

theorem stripZeros_spec (x : List Nat) (m : Nat) :
    stripZeros (x ++ [END_BYTE] ++ List.replicate m 0) = x ++ [END_BYTE] := by
  unfold stripZeros
  have hrev : (x ++ [END_BYTE] ++ List.replicate m 0).reverse
      = List.replicate m 0 ++ (END_BYTE :: x.reverse) := by
    simp [List.reverse_append, List.reverse_replicate]
  rw [hrev, dropWhile_replicate_zero, List.dropWhile_cons,
    if_neg (by decide), List.reverse_cons, List.reverse_reverse]

theorem stripEnd_spec (x : List Nat) :
    stripEnd (x ++ [END_BYTE]) = x := by
  unfold stripEnd
  rw [List.getLast?_concat, if_pos rfl, List.dropLast_concat]

/-- Reading at the head block of a well-formed record yields the decoded
payload (or CorruptedBlock when the codec fails). -/
theorem readUM_record {α : Type} (dec : List Nat → Option α) (cbd : Cabide)
    (block : Nat) (flag : Bool) (raw tail : List Nat)
    (hfile : cbd.file.drop (block * BLOCK_SIZE) = writeRecG raw tagStart ++ tail)
    (hm : raw.length % CONTENT_SIZE ≠ 0)
    (ht : ∀ x, tail.head? = some x → x ≠ tagCont) :
    (Cabide.readUM dec cbd block flag).1
      = match dec raw with
        | some v => Except.ok v
        | none => Except.error CbdError.CorruptedBlock := by
  unfold Cabide.readUM
  dsimp only
  rw [hfile, readLoop_record flag raw tail [] tagStart hm ht]
  dsimp only
  rw [List.nil_append, stripZeros_spec raw _, stripEnd_spec raw]
  cases dec raw <;> rfl

/-- Reading at an interior (Continuation-tagged) block errors. -/
theorem readUM_continuation {α : Type} (dec : List Nat → Option α) (cbd : Cabide)
    (block : Nat) (flag : Bool)
    (h : (cbd.file.drop (block * BLOCK_SIZE)).head? = some tagCont) :
    (Cabide.readUM dec cbd block flag).1 = Except.error CbdError.ContinuationBlock := by
  unfold Cabide.readUM
  dsimp only
  cases hF : cbd.file.drop (block * BLOCK_SIZE) with
  | nil =>
    rw [hF] at h
    exact Option.noConfusion h
  | cons t ts =>
    rw [hF] at h
    have htv : t = tagCont := by simpa using h
    subst htv
    rw [chunksOf_eq, if_neg (by
      rintro (hx | hx)
      · exact (List.cons_ne_nil _ ts) hx
      · exact absurd hx (by decide))]
    rw [show BLOCK_SIZE = 29 + 1 from rfl, List.take_succ_cons]
    simp only [readLoop]
    rw [if_pos (by constructor <;> decide)]
    rw [if_neg (by decide : ¬(tagCont = tagEmpty))]

/-- Reading at an Empty-tagged block errors. -/
theorem readUM_empty {α : Type} (dec : List Nat → Option α) (cbd : Cabide)
    (block : Nat) (flag : Bool)
    (h : (cbd.file.drop (block * BLOCK_SIZE)).head? = some tagEmpty) :
    (Cabide.readUM dec cbd block flag).1 = Except.error CbdError.EmptyBlock := by
  unfold Cabide.readUM
  dsimp only
  cases hF : cbd.file.drop (block * BLOCK_SIZE) with
  | nil =>
    rw [hF] at h
    exact Option.noConfusion h
  | cons t ts =>
    rw [hF] at h
    have htv : t = tagEmpty := by simpa using h
    subst htv
    rw [chunksOf_eq, if_neg (by
      rintro (hx | hx)
      · exact (List.cons_ne_nil _ ts) hx
      · exact absurd hx (by decide))]
    rw [show BLOCK_SIZE = 29 + 1 from rfl, List.take_succ_cons]
    simp only [readLoop]
    rw [if_pos (by constructor <;> decide)]
    rfl

/-- Writing on a fresh store appends the framed record at block 0. -/
theorem write_fresh (raw : List Nat) :
    (Cabide.new [] none).write raw
      = (⟨writeRecord raw, ceilDiv raw.length CONTENT_SIZE, []⟩, 0) := by
  show Cabide.write ⟨[], 0, []⟩ raw = _
  unfold Cabide.write
  dsimp only [allocScan]
  simp [writeAt]

set_option maxRecDepth 40000 in
/-- C1 (amended theorem): round trip holds on a fresh store for every value
whose encoding length is not an exact multiple of CONTENT_SIZE (whatever its
final byte is): read(write(v)) = Ok(v). -/
theorem c1_amended_round_trip {α : Type} (enc : α → List Nat)
    (dec : List Nat → Option α) (v : α)
    (hlen : (enc v).length % CONTENT_SIZE ≠ 0) (hdec : dec (enc v) = some v) :
    (Cabide.read dec ((Cabide.new [] none).write (enc v)).1
        ((Cabide.new [] none).write (enc v)).2).1 = Except.ok v := by
  rw [write_fresh (enc v)]
  have hfile : (Cabide.mk (writeRecord (enc v)) (ceilDiv (enc v).length CONTENT_SIZE) []).file.drop
      (0 * BLOCK_SIZE) = writeRecG (enc v) tagStart ++ [] := by
    simp [writeRecord_eq_writeRecG]
  unfold Cabide.read
  rw [readUM_record dec _ 0 false (enc v) [] hfile hlen (by intro x hx; cases hx)]
  rw [hdec]

set_option maxRecDepth 40000 in
/-- C1 witness: the amended round trip at the concrete one-byte value [5]
with the identity codec. -/
theorem c1_witness :
    ((idEnc [5]).length % CONTENT_SIZE ≠ 0) ∧ idDec (idEnc [5]) = some [5] ∧
    (Cabide.read idDec ((Cabide.new [] none).write (idEnc [5])).1
        ((Cabide.new [] none).write (idEnc [5])).2).1 = Except.ok [5] :=
  ⟨by decide, by decide, c1_amended_round_trip idEnc idDec [5] (by decide) (by decide)⟩

theorem chunksOf_length (l : List Nat) :
    (chunksOf CONTENT_SIZE l).length = ceilDiv l.length CONTENT_SIZE := by
  by_cases h0 : l = []
  · subst h0
    rw [chunksOf_nil]
    rfl
  · by_cases h : l.length ≤ CONTENT_SIZE
    · rw [chunksOf_small CONTENT_SIZE l h0 h (by decide)]
      have hl : 0 < l.length := List.length_pos.mpr h0
      unfold ceilDiv
      rw [CONTENT_SIZE_eq] at h ⊢
      rw [List.length_singleton]
      symm
      exact Nat.div_eq_of_lt_le (by omega) (by omega)
    · push_neg at h
      rw [chunksOf_big CONTENT_SIZE l h (by decide), List.length_cons,
        chunksOf_length (l.drop CONTENT_SIZE)]
      unfold ceilDiv
      rw [List.length_drop, CONTENT_SIZE_eq] at *
      have h1 : l.length - 28 + 28 - 1 = l.length - 1 := by omega
      have h2 : l.length + 28 - 1 = (l.length - 1) + 28 := by omega
      rw [h1, h2, Nat.add_div_right _ (by omega)]
termination_by l.length
decreasing_by
  have hC : CONTENT_SIZE = 28 := rfl
  simp only [List.length_drop]
  rw [hC] at h ⊢
  omega

theorem ceilDiv_mul_self (s : Nat) : ceilDiv (BLOCK_SIZE * s) BLOCK_SIZE = s := by
  unfold ceilDiv
  rw [BLOCK_SIZE_eq]
  rcases Nat.eq_zero_or_pos s with h | h
  · subst h; rfl
  · have h1 : 30 * s + 30 - 1 = 29 + 30 * s := by omega
    rw [h1, Nat.add_mul_div_left _ _ (by omega), Nat.div_eq_of_lt (by omega)]
    omega

theorem writeAt_append (A b : List Nat) : writeAt A A.length b = A ++ b := by
  unfold writeAt
  rw [List.take_of_length_le (Nat.le_refl _), Nat.sub_self, List.replicate_zero,
    List.drop_of_length_le (by omega)]
  simp

theorem writeRecord_length (raw : List Nat) :
    (writeRecord raw).length = ceilDiv raw.length CONTENT_SIZE * BLOCK_SIZE := by
  rw [writeRecord_eq_writeRecG, writeRecG_length, chunksOf_length]

/-- A write on a store with an empty free-run index and the cursor at the end
of the file appends the framed record. -/
theorem write_exact (A : List Nat) (k : Nat) (raw : List Nat)
    (hA : A.length = k * BLOCK_SIZE) :
    Cabide.write ⟨A, k, []⟩ raw
      = (⟨A ++ writeRecord raw, k + ceilDiv raw.length CONTENT_SIZE, []⟩, k) := by
  unfold Cabide.write
  dsimp only [allocScan]
  rw [← hA, writeAt_append]

/-- A write on a store with an empty free-run index whose cursor points into
a zero-filled region overwrites that region in place. -/
theorem write_intoZeros (A : List Nat) (Z k : Nat) (raw : List Nat)
    (hA : A.length = k * BLOCK_SIZE) :
    Cabide.write ⟨A ++ List.replicate Z 0, k, []⟩ raw
      = (⟨A ++ writeRecord raw ++ List.replicate (Z - (writeRecord raw).length) 0,
          k + ceilDiv raw.length CONTENT_SIZE, []⟩, k) := by
  unfold Cabide.write
  dsimp only [allocScan]
  unfold writeAt
  have h1 : (A ++ List.replicate Z 0).take (k * BLOCK_SIZE) = A := by
    rw [← hA, List.take_left]
  have h2 : k * BLOCK_SIZE - (A ++ List.replicate Z 0).length = 0 := by
    rw [List.length_append, List.length_replicate, ← hA]
    omega
  have h3 : (A ++ List.replicate Z 0).drop (k * BLOCK_SIZE + (writeRecord raw).length)
      = List.replicate (Z - (writeRecord raw).length) 0 := by
    rw [← hA, List.drop_append, List.drop_replicate]
  rw [h1, h2, h3, List.replicate_zero]
  simp [List.append_assoc]

/-- Folding writes over a store obtained from exact appends. -/
theorem foldl_write_shape {α : Type} (enc : α → List Nat) (L : List α) :
    ∀ (A : List Nat) (k : Nat), A.length = k * BLOCK_SIZE →
    L.foldl (fun (c : Cabide) (w : α) => (c.write (enc w)).1) (⟨A, k, []⟩ : Cabide)
      = ⟨A ++ (L.map (fun w => writeRecord (enc w))).flatten,
         k + (L.map (fun w => ceilDiv (enc w).length CONTENT_SIZE)).sum, []⟩ := by
  induction L with
  | nil =>
    intro A k hA
    simp
  | cons v L ih =>
    intro A k hA
    rw [List.foldl_cons, write_exact A k (enc v) hA]
    have hlen : (A ++ writeRecord (enc v)).length
        = (k + ceilDiv (enc v).length CONTENT_SIZE) * BLOCK_SIZE := by
      rw [List.length_append, hA, writeRecord_length, Nat.add_mul]
    rw [ih (A ++ writeRecord (enc v)) (k + ceilDiv (enc v).length CONTENT_SIZE) hlen]
    simp [List.append_assoc, Nat.add_assoc]

/-- The outcome of read_update_metadata as a function of the readLoop result
alone. -/
theorem readUM_fst_eq {α : Type} (dec : List Nat → Option α) (cbd : Cabide)
    (block : Nat) (flag : Bool) :
    (Cabide.readUM dec cbd block flag).1
      = match (readLoop flag (chunksOf BLOCK_SIZE (cbd.file.drop (block * BLOCK_SIZE)))
          tagStart []).1 with
        | Except.error e => Except.error e
        | Except.ok content =>
          match dec (stripEnd (stripZeros content)) with
          | some v => Except.ok v
          | none => Except.error CbdError.CorruptedBlock := by
  unfold Cabide.readUM
  dsimp only
  split
  · rfl
  · split <;> rfl

/-- The first component of read_update_metadata depends only on the file. -/
theorem readUM_fst_file {α : Type} (dec : List Nat → Option α) (F : List Nat)
    (n1 n2 : Nat) (e1 e2 : List (Nat × List Nat)) (block : Nat) (flag : Bool) :
    (Cabide.readUM dec ⟨F, n1, e1⟩ block flag).1
      = (Cabide.readUM dec ⟨F, n2, e2⟩ block flag).1 := by
  rw [readUM_fst_eq, readUM_fst_eq]

theorem filterLoop_file {α : Type} (dec : List Nat → Option α) (F : List Nat)
    (n1 n2 : Nat) (e1 e2 : List (Nat × List Nat)) (p : α → Bool) (l : List Nat) :
    filterLoop dec ⟨F, n1, e1⟩ p l = filterLoop dec ⟨F, n2, e2⟩ p l := by
  induction l with
  | nil => rfl
  | cons b bs ih =>
    simp only [filterLoop, Cabide.read, readUM_fst_file dec F n1 n2 e1 e2 b false]
    cases (Cabide.readUM dec ⟨F, n2, e2⟩ b false).1 with
    | ok v => cases hpv : p v <;> simp [hpv, ih]
    | error e => cases e <;> simp [ih]

theorem filterLoop_append {α : Type} (dec : List Nat → Option α) (cbd : Cabide)
    (p : α → Bool) (l1 l2 : List Nat) :
    filterLoop dec cbd p (l1 ++ l2)
      = filterLoop dec cbd p l1 ++ filterLoop dec cbd p l2 := by
  induction l1 with
  | nil => rfl
  | cons b bs ih =>
    simp only [List.cons_append, filterLoop]
    cases (Cabide.read dec cbd b).1 with
    | ok v => cases hpv : p v <;> simp [hpv, ih]
    | error e => cases e <;> simp [ih]

/-- A scan over blocks that are all Empty- or Continuation-headed collects
nothing. -/
theorem filterLoop_skip {α : Type} (dec : List Nat → Option α) (cbd : Cabide)
    (p : α → Bool) (l : List Nat)
    (h : ∀ b ∈ l, (cbd.file.drop (b * BLOCK_SIZE)).head? = some tagEmpty ∨
      (cbd.file.drop (b * BLOCK_SIZE)).head? = some tagCont) :
    filterLoop dec cbd p l = [] := by
  induction l with
  | nil => rfl
  | cons b bs ih =>
    simp only [filterLoop, Cabide.read]
    rcases h b (List.mem_cons_self _ _) with hb | hb
    · rw [readUM_empty dec cbd b false hb]
      exact ih (fun q hq => h q (List.mem_cons_of_mem _ hq))
    · rw [readUM_continuation dec cbd b false hb]
      exact ih (fun q hq => h q (List.mem_cons_of_mem _ hq))

/-- Inside a record, every block after the first carries the Continuation
tag. -/
theorem writeRecG_interior (raw : List Nat) (meta : Nat) (T : List Nat)
    (j : Nat) (hj1 : 1 ≤ j) (hj2 : j < (chunksOf CONTENT_SIZE raw).length) :
    ((writeRecG raw meta ++ T).drop (j * BLOCK_SIZE)).head? = some tagCont := by
  have hbig : CONTENT_SIZE < raw.length := by
    by_contra hle
    push_neg at hle
    by_cases h0 : raw = []
    · subst h0
      rw [chunksOf_nil] at hj2
      simp at hj2
    · rw [chunksOf_small CONTENT_SIZE raw h0 hle (by decide)] at hj2
      simp at hj2
      omega
  have hd0 : raw.drop CONTENT_SIZE ≠ [] := by
    intro he
    have := congrArg List.length he
    rw [List.length_drop] at this
    simp at this
    omega
  rw [writeRecG_big raw meta hbig, List.append_assoc]
  obtain ⟨i, rfl⟩ : ∃ i, j = i + 1 := ⟨j - 1, by omega⟩
  have hblock : ([meta] ++ raw.take CONTENT_SIZE ++ [END_BYTE]).length = BLOCK_SIZE := by
    rw [List.length_append, List.length_append,
      List.length_take_of_le (Nat.le_of_lt hbig)]
    simp only [List.length_singleton]
    decide
  rcases Nat.eq_zero_or_pos i with hi | hi
  · subst hi
    have h30 : 1 * BLOCK_SIZE = ([meta] ++ raw.take CONTENT_SIZE ++ [END_BYTE]).length := by
      rw [hblock]; decide
    rw [h30, List.drop_left, List.head?_append,
      writeRecG_head (raw.drop CONTENT_SIZE) tagCont hd0]
    rfl
  · have harith : (i + 1) * BLOCK_SIZE
        = ([meta] ++ raw.take CONTENT_SIZE ++ [END_BYTE]).length + i * BLOCK_SIZE := by
      rw [hblock]
      ring
    rw [harith, List.drop_append]
    have hcount : i < (chunksOf CONTENT_SIZE (raw.drop CONTENT_SIZE)).length := by
      rw [chunksOf_big CONTENT_SIZE raw hbig (by decide), List.length_cons] at hj2
      omega
    exact writeRecG_interior (raw.drop CONTENT_SIZE) tagCont T i hi hcount
termination_by raw.length
decreasing_by
  have hC : CONTENT_SIZE = 28 := rfl
  simp only [List.length_drop]
  rw [hC] at hbig ⊢
  omega

theorem sum_map_mul {α : Type} (L : List α) (f : α → Nat) (b : Nat) :
    (L.map (fun x => f x * b)).sum = (L.map f).sum * b := by
  induction L with
  | nil => simp
  | cons x xs ih => simp [ih, Nat.add_mul]

set_option maxHeartbeats 1000000 in
/-- Scanning the blocks of a sequence of contiguous well-formed records
collects exactly the records that satisfy the predicate. -/
theorem filterLoop_records {α : Type} (dec : List Nat → Option α) (enc : α → List Nat)
    (p : α → Bool) (L : List α) :
    ∀ (s : Nat) (cbd : Cabide),
      cbd.file.drop (s * BLOCK_SIZE) = (L.map (fun w => writeRecord (enc w))).flatten →
      (∀ w ∈ L, (enc w).length % CONTENT_SIZE ≠ 0 ∧ dec (enc w) = some w) →
      filterLoop dec cbd p
        (List.range' s ((L.map (fun w => ceilDiv (enc w).length CONTENT_SIZE)).sum))
        = L.filter p := by
  induction L with
  | nil => intro s cbd hfile hwf; rfl
  | cons v L ih =>
    intro s cbd hfile hwf
    obtain ⟨hm, hd⟩ := hwf v (List.mem_cons_self _ _)
    have hv0 : enc v ≠ [] := by
      intro he
      rw [he] at hm
      simp at hm
    have hn1pos : 1 ≤ ceilDiv (enc v).length CONTENT_SIZE := by
      have hl : 1 ≤ (enc v).length := List.length_pos.mpr hv0
      unfold ceilDiv
      rw [CONTENT_SIZE_eq]
      rw [Nat.le_div_iff_mul_le (by omega)]
      omega
    simp only [List.map_cons, List.sum_cons, List.flatten_cons] at hfile ⊢
    have hsplit : List.range' s (ceilDiv (enc v).length CONTENT_SIZE
          + (L.map (fun w => ceilDiv (enc w).length CONTENT_SIZE)).sum)
        = List.range' s (ceilDiv (enc v).length CONTENT_SIZE)
          ++ List.range' (s + ceilDiv (enc v).length CONTENT_SIZE)
              ((L.map (fun w => ceilDiv (enc w).length CONTENT_SIZE)).sum) := by
      rw [Nat.add_comm]
      have := List.range'_append s (ceilDiv (enc v).length CONTENT_SIZE)
        ((L.map (fun w => ceilDiv (enc w).length CONTENT_SIZE)).sum) 1
      rw [Nat.one_mul] at this
      exact this.symm
    rw [hsplit, filterLoop_append]
    have hfile1 : cbd.file.drop (s * BLOCK_SIZE)
        = writeRecG (enc v) tagStart ++ (L.map (fun w => writeRecord (enc w))).flatten := by
      rw [hfile, writeRecord_eq_writeRecG]
    have ht : ∀ x, ((L.map (fun w => writeRecord (enc w))).flatten).head? = some x →
        x ≠ tagCont := by
      intro x hx
      cases L with
      | nil => simp at hx
      | cons w ws =>
        simp only [List.map_cons, List.flatten_cons] at hx
        have hw0 : enc w ≠ [] := by
          intro he
          have := (hwf w (by simp)).1
          rw [he] at this
          simp at this
        rw [List.head?_append, writeRecord_eq_writeRecG,
          writeRecG_head (enc w) tagStart hw0] at hx
        simp at hx
        rw [← hx]
        decide
    have hr1 : List.range' s (ceilDiv (enc v).length CONTENT_SIZE)
        = s :: List.range' (s + 1) (ceilDiv (enc v).length CONTENT_SIZE - 1) := by
      obtain ⟨m, hmeq⟩ : ∃ m, ceilDiv (enc v).length CONTENT_SIZE = m + 1 :=
        ⟨ceilDiv (enc v).length CONTENT_SIZE - 1, by omega⟩
      rw [hmeq]
      simp [List.range'_succ]
    rw [hr1]
    simp only [filterLoop, Cabide.read]
    rw [readUM_record dec cbd s false (enc v) _ hfile1 hm ht, hd]
    have hskip : filterLoop dec cbd p
        (List.range' (s + 1) (ceilDiv (enc v).length CONTENT_SIZE - 1)) = [] := by
      apply filterLoop_skip
      intro b hb
      right
      rw [List.mem_range'] at hb
      obtain ⟨i, hi, hbeq⟩ := hb
      subst hbeq
      have harith : (s + 1 + 1 * i) * BLOCK_SIZE = s * BLOCK_SIZE + (i + 1) * BLOCK_SIZE := by
        ring
      rw [harith, ← List.drop_drop, hfile1, ← writeRecord_eq_writeRecG]
      rw [writeRecord_eq_writeRecG]
      apply writeRecG_interior (enc v) tagStart _ (i + 1) (by omega)
      rw [chunksOf_length]
      omega
    rw [hskip]
    have hrest : filterLoop dec cbd p
        (List.range' (s + ceilDiv (enc v).length CONTENT_SIZE)
          ((L.map (fun w => ceilDiv (enc w).length CONTENT_SIZE)).sum))
        = L.filter p := by
      apply ih
      · have harith : (s + ceilDiv (enc v).length CONTENT_SIZE) * BLOCK_SIZE
            = s * BLOCK_SIZE + ceilDiv (enc v).length CONTENT_SIZE * BLOCK_SIZE := by
          ring
        rw [harith, ← List.drop_drop, hfile1]
        have hwl : ceilDiv (enc v).length CONTENT_SIZE * BLOCK_SIZE
            = (writeRecG (enc v) tagStart).length := by
          rw [← writeRecord_eq_writeRecG, writeRecord_length]
        rw [hwl, List.drop_left]
      · intro w hw
        exact hwf w (List.mem_cons_of_mem _ hw)
    rw [hrest]
    rw [List.filter_cons]
    cases hpv : p v <;> simp [hpv]

/-- Cabide::filter over a store whose file is a run of contiguous well-formed
records returns exactly the records satisfying the predicate. -/
theorem filter_records {α : Type} (dec : List Nat → Option α) (enc : α → List Nat)
    (p : α → Bool) (L : List α) (nb : Nat) (eb : List (Nat × List Nat))
    (hwf : ∀ w ∈ L, (enc w).length % CONTENT_SIZE ≠ 0 ∧ dec (enc w) = some w) :
    Cabide.filter dec ⟨(L.map (fun w => writeRecord (enc w))).flatten, nb, eb⟩ p
      = L.filter p := by
  unfold Cabide.filter
  have hblocks : (Cabide.mk (L.map (fun w => writeRecord (enc w))).flatten nb eb).blocks
      = (L.map (fun w => ceilDiv (enc w).length CONTENT_SIZE)).sum := by
    unfold Cabide.blocks
    dsimp only
    rw [List.length_flatten, List.map_map]
    have hmap : (List.map (List.length ∘ fun w => writeRecord (enc w)) L)
        = List.map (fun w => ceilDiv (enc w).length CONTENT_SIZE * BLOCK_SIZE) L := by
      apply List.map_congr_left
      intro w _
      simp [Function.comp, writeRecord_length]
    rw [hmap, sum_map_mul, Nat.mul_comm, ceilDiv_mul_self]
  rw [hblocks, List.range_eq_range']
  apply filterLoop_records dec enc p L 0
  · simp
  · exact hwf

theorem filter_file {α : Type} (dec : List Nat → Option α) (F : List Nat)
    (n1 n2 : Nat) (e1 e2 : List (Nat × List Nat)) (p : α → Bool) :
    Cabide.filter dec ⟨F, n1, e1⟩ p = Cabide.filter dec ⟨F, n2, e2⟩ p := by
  unfold Cabide.filter
  exact filterLoop_file dec F n1 n2 e1 e2 p _

/-- C3: OrderCabide::write appends the value to the buffer; when the buffer
reaches BUFFER_MAX_BLOCKS blocks the flush makes the main store's live
contents exactly the previous main live values and the buffer live values
sorted (stably) by the comparator on extracted keys, and leaves the buffer
and scratch stores truncated to empty; without the threshold only the buffer
changes. -/
theorem c3_order_write_flush {α κ : Type} (enc : α → List Nat)
    (dec : List Nat → Option α) (extract : α → κ) (ord : κ → κ → Ordering)
    (oc : OrderCabide) (v : α)
    (hwf : ∀ w ∈ (Cabide.filter dec oc.main (fun _ => true)
        ++ Cabide.filter dec ((oc.buffer.write (enc v)).1) (fun _ => true)),
      (enc w).length % CONTENT_SIZE ≠ 0 ∧ dec (enc w) = some w) :
    (¬ BUFFER_MAX_BLOCKS ≤ ((oc.buffer.write (enc v)).1).blocks →
      OrderCabide.write enc dec extract ord oc v
        = { oc with buffer := (oc.buffer.write (enc v)).1 }) ∧
    (BUFFER_MAX_BLOCKS ≤ ((oc.buffer.write (enc v)).1).blocks →
      Cabide.filter dec (OrderCabide.write enc dec extract ord oc v).main (fun _ => true)
        = (Cabide.filter dec oc.main (fun _ => true)
            ++ Cabide.filter dec ((oc.buffer.write (enc v)).1) (fun _ => true)).mergeSort
            (fun a b => ord (extract a) (extract b) ≠ Ordering.gt) ∧
      (OrderCabide.write enc dec extract ord oc v).buffer = Cabide.mk [] 0 [] ∧
      (OrderCabide.write enc dec extract ord oc v).scratch = Cabide.mk [] 0 []) := by
  constructor
  · intro hno
    unfold OrderCabide.write
    rw [if_neg hno]
  · intro hyes
    unfold OrderCabide.write
    rw [if_pos hyes]
    dsimp only
    refine ⟨?_, rfl, rfl⟩
    rw [show Cabide.truncate oc.scratch = (⟨[], 0, []⟩ : Cabide) from rfl]
    rw [foldl_write_shape enc _ [] 0 (by simp)]
    dsimp only
    rw [List.nil_append]
    rw [filter_records dec enc (fun _ => true) _ oc.main.next_block oc.main.empty_blocks ?hwf2]
    · exact List.filter_true _
    · intro w hw
      exact hwf w ((List.mem_mergeSort).mp hw)

/-- Concrete order store on the verge of a flush: the buffer already spans
BUFFER_MAX_BLOCKS blocks (all Empty), main and scratch are empty. -/
def ocW : OrderCabide :=
  ⟨⟨List.replicate 6000 0, 200, []⟩, ⟨[], 0, []⟩, ⟨[], 0, []⟩⟩

set_option maxRecDepth 40000 in
/-- C3 witness: on the concrete store the flush hypotheses hold and the
flush conclusion follows by the theorem. -/
theorem c3_witness :
    (∀ w ∈ (Cabide.filter idDec ocW.main (fun _ => true)
        ++ Cabide.filter idDec ((ocW.buffer.write (idEnc [7])).1) (fun _ => true)),
      (idEnc w).length % CONTENT_SIZE ≠ 0 ∧ idDec (idEnc w) = some w) ∧
    BUFFER_MAX_BLOCKS ≤ ((ocW.buffer.write (idEnc [7])).1).blocks ∧
    (Cabide.filter idDec
        (OrderCabide.write idEnc idDec (fun l => l) (fun _ _ => Ordering.eq) ocW [7]).main
        (fun _ => true)
      = (Cabide.filter idDec ocW.main (fun _ => true)
          ++ Cabide.filter idDec ((ocW.buffer.write (idEnc [7])).1) (fun _ => true)).mergeSort
          (fun a b => (fun _ _ : List Nat => Ordering.eq) ((fun l => l) a) ((fun l => l) b)
            ≠ Ordering.gt) ∧
      (OrderCabide.write idEnc idDec (fun l => l) (fun _ _ => Ordering.eq) ocW [7]).buffer
        = Cabide.mk [] 0 [] ∧
      (OrderCabide.write idEnc idDec (fun l => l) (fun _ _ => Ordering.eq) ocW [7]).scratch
        = Cabide.mk [] 0 []) := by
  have hbuf : ((ocW.buffer.write (idEnc [7])).1)
      = ⟨List.replicate 6000 0 ++ writeRecord [7], 201, []⟩ := by
    have hsz : (List.replicate 6000 (0:Nat)).length = 200 * BLOCK_SIZE := by
      rw [List.length_replicate, BLOCK_SIZE_eq]
    have hw := write_exact (List.replicate 6000 0) 200 [7] hsz
    show (Cabide.write ⟨List.replicate 6000 0, 200, []⟩ [7]).1 = _
    rw [hw]
    rfl
  have hlen6030 : (List.replicate 6000 (0:Nat) ++ writeRecord [7]).length = 6030 := by
    rw [List.length_append, List.length_replicate, writeRecord_length]
    decide
  have hblocks : (Cabide.mk (List.replicate 6000 0 ++ writeRecord [7]) 201 []).blocks = 201 := by
    unfold Cabide.blocks
    dsimp only
    rw [hlen6030]
    decide
  have hB : Cabide.filter idDec (Cabide.mk (List.replicate 6000 0 ++ writeRecord [7]) 201 [])
      (fun _ => true) = [[7]] := by
    unfold Cabide.filter
    rw [hblocks, List.range_eq_range']
    have hsplit : List.range' 0 201 = List.range' 0 200 ++ List.range' 200 1 := by
      have h := List.range'_append 0 200 1 1
      norm_num at h
      exact h.symm
    rw [hsplit, filterLoop_append]
    have h1 : filterLoop idDec (Cabide.mk (List.replicate 6000 0 ++ writeRecord [7]) 201 [])
        (fun _ => true) (List.range' 0 200) = [] := by
      apply filterLoop_skip
      intro b hb
      left
      rw [List.mem_range'] at hb
      obtain ⟨i, hi, rfl⟩ := hb
      have hle : (0 + 1 * i) * BLOCK_SIZE ≤ (List.replicate 6000 (0:Nat)).length := by
        rw [List.length_replicate, BLOCK_SIZE_eq]
        omega
      show ((List.replicate 6000 0 ++ writeRecord [7]).drop ((0 + 1 * i) * BLOCK_SIZE)).head?
        = some tagEmpty
      rw [List.drop_append_of_le_length hle, List.drop_replicate, List.head?_append,
        List.head?_replicate]
      rw [if_neg (by rw [BLOCK_SIZE_eq]; omega)]
      rfl
    have h2 : filterLoop idDec (Cabide.mk (List.replicate 6000 0 ++ writeRecord [7]) 201 [])
        (fun _ => true) (List.range' 200 1) = [[7]] := by
      show filterLoop idDec _ (fun _ => true) [200] = _
      simp only [filterLoop, Cabide.read]
      have hf : ((Cabide.mk (List.replicate 6000 0 ++ writeRecord [7]) 201 []).file.drop
          (200 * BLOCK_SIZE)) = writeRecG [7] tagStart ++ [] := by
        have h6000 : 200 * BLOCK_SIZE = (List.replicate 6000 (0:Nat)).length := by
          rw [List.length_replicate, BLOCK_SIZE_eq]
        dsimp only
        rw [h6000, List.drop_left, List.append_nil, ← writeRecord_eq_writeRecG]
      rw [readUM_record idDec _ 200 false [7] [] hf (by decide) (by
        intro x hx
        cases hx)]
      rfl
    rw [h1, h2]
    rfl
  have hA : Cabide.filter idDec ocW.main (fun _ => true) = [] := rfl
  have htrig : BUFFER_MAX_BLOCKS ≤ ((ocW.buffer.write (idEnc [7])).1).blocks := by
    rw [hbuf, hblocks]
    decide
  have hwfp : ∀ w ∈ (Cabide.filter idDec ocW.main (fun _ => true)
      ++ Cabide.filter idDec ((ocW.buffer.write (idEnc [7])).1) (fun _ => true)),
      (idEnc w).length % CONTENT_SIZE ≠ 0 ∧ idDec (idEnc w) = some w := by
    intro w hw
    rw [hA, hbuf, hB] at hw
    simp at hw
    subst hw
    exact ⟨by decide, rfl⟩
  exact ⟨hwfp, htrig,
    (c3_order_write_flush idEnc idDec (fun l => l) (fun _ _ => Ordering.eq) ocW [7] hwfp).2
      htrig⟩

/-! Block-granular view of a file (claim C5). -/

theorem flatten_uniform_length (bs : List (List Nat))
    (hu : ∀ b ∈ bs, b.length = BLOCK_SIZE) :
    bs.flatten.length = bs.length * BLOCK_SIZE := by
  induction bs with
  | nil => simp
  | cons b rest ih =>
    rw [List.flatten_cons, List.length_append, hu b (List.mem_cons_self _ _),
      ih (fun q hq => hu q (List.mem_cons_of_mem _ hq)), List.length_cons]
    ring

theorem drop_flatten_uniform (bs : List (List Nat)) :
    ∀ (j : Nat), (∀ b ∈ bs, b.length = BLOCK_SIZE) → j ≤ bs.length →
    bs.flatten.drop (j * BLOCK_SIZE) = (bs.drop j).flatten := by
  induction bs with
  | nil =>
    intro j _ hj
    simp
  | cons b rest ih =>
    intro j hu hj
    cases j with
    | zero => simp
    | succ i =>
      rw [List.flatten_cons, List.drop_succ_cons]
      have harith : (i + 1) * BLOCK_SIZE = b.length + i * BLOCK_SIZE := by
        rw [hu b (List.mem_cons_self _ _)]
        ring
      rw [harith, List.drop_append]
      exact ih i (fun q hq => hu q (List.mem_cons_of_mem _ hq))
        (by rw [List.length_cons] at hj; omega)

theorem take_flatten_uniform (bs : List (List Nat)) :
    ∀ (j : Nat), (∀ b ∈ bs, b.length = BLOCK_SIZE) → j ≤ bs.length →
    bs.flatten.take (j * BLOCK_SIZE) = (bs.take j).flatten := by
  induction bs with
  | nil =>
    intro j _ hj
    simp
  | cons b rest ih =>
    intro j hu hj
    cases j with
    | zero => simp
    | succ i =>
      rw [List.flatten_cons, List.take_succ_cons, List.flatten_cons]
      have harith : (i + 1) * BLOCK_SIZE = b.length + i * BLOCK_SIZE := by
        rw [hu b (List.mem_cons_self _ _)]
        ring
      rw [harith, List.take_append]
      rw [ih i (fun q hq => hu q (List.mem_cons_of_mem _ hq))
        (by rw [List.length_cons] at hj; omega)]

theorem chunksOf_flatten_uniform (bs : List (List Nat))
    (hu : ∀ b ∈ bs, b.length = BLOCK_SIZE) :
    chunksOf BLOCK_SIZE bs.flatten = bs := by
  induction bs with
  | nil => exact chunksOf_nil BLOCK_SIZE
  | cons b rest ih =>
    rw [List.flatten_cons,
      chunksOf_append BLOCK_SIZE (by decide) b _ (hu b (List.mem_cons_self _ _)),
      ih (fun q hq => hu q (List.mem_cons_of_mem _ hq))]

theorem flatten_replicate_zero (R : Nat) :
    (List.replicate R (List.replicate BLOCK_SIZE (0:Nat))).flatten
      = List.replicate (R * BLOCK_SIZE) 0 := by
  induction R with
  | zero => simp
  | succ k ih =>
    rw [List.replicate_succ, List.flatten_cons, ih]
    have : (k + 1) * BLOCK_SIZE = BLOCK_SIZE + k * BLOCK_SIZE := by ring
    rw [this, List.replicate_add]

/-- The bytes of a one-block record holding payload [x]. -/
def sblk (x : Nat) : List Nat := [tagStart, x, END_BYTE] ++ List.replicate 27 0

/-- The same block after its tag has been cleared by remove. -/
def zblk (x : Nat) : List Nat := [tagEmpty, x, END_BYTE] ++ List.replicate 27 0

theorem writeRecord_single (x : Nat) : writeRecord [x] = sblk x := by
  rw [writeRecord_eq_writeRecG,
    writeRecG_small [x] tagStart (by simp) (by rw [List.length_singleton]; decide)]
  rfl

theorem take_content_single (x : Nat) :
    List.take CONTENT_SIZE (x :: END_BYTE :: List.replicate 27 0)
      = x :: END_BYTE :: List.replicate 26 0 := by
  rw [show CONTENT_SIZE = 27 + 1 from rfl, List.take_succ_cons,
    show (27 : Nat) = 26 + 1 from rfl, List.take_succ_cons, List.take_replicate]
  norm_num

/-- Removing a one-block record at block j of a block-uniform file clears the
block's tag, returns the payload, and pushes the 1-block run into the index. -/
theorem remove_single (bs : List (List Nat)) (j x nb : Nat) (eb : List (Nat × List Nat))
    (hu : ∀ b ∈ bs, b.length = BLOCK_SIZE)
    (hj : j + 1 < bs.length)
    (hbj : bs[j]? = some (sblk x))
    (hnext : ∃ y ys, bs[j + 1]? = some (y :: ys) ∧ y ≠ tagCont) :
    Cabide.remove idDec ⟨bs.flatten, nb, eb⟩ j
      = (Except.ok [x], ⟨(bs.set j (zblk x)).flatten, nb, insertEB eb 1 j⟩) := by
  obtain ⟨y, ys, hy, hyne⟩ := hnext
  have hjlt : j < bs.length := by omega
  have hgj : bs[j] = sblk x := by
    have h1 := List.getElem?_eq_getElem hjlt
    rw [hbj] at h1
    exact (Option.some.injEq _ _ ▸ h1).symm
  have hgj1 : bs[j + 1] = y :: ys := by
    have h1 := List.getElem?_eq_getElem hj
    rw [hy] at h1
    exact (Option.some.injEq _ _ ▸ h1).symm
  have hdrop1 : bs.drop (j + 1) = (y :: ys) :: bs.drop (j + 2) := by
    rw [List.drop_eq_getElem_cons hj, hgj1]
  have hdecomp : bs.drop j = sblk x :: (y :: ys) :: bs.drop (j + 2) := by
    rw [List.drop_eq_getElem_cons hjlt, hgj, hdrop1]
  have hu2 : ∀ b ∈ sblk x :: (y :: ys) :: bs.drop (j + 2), b.length = BLOCK_SIZE := by
    intro b hb
    rw [← hdecomp] at hb
    exact hu b (List.mem_of_mem_drop hb)
  unfold Cabide.remove Cabide.readUM
  dsimp only
  rw [drop_flatten_uniform bs j hu (by omega), hdecomp,
    chunksOf_flatten_uniform _ hu2]
  rw [show sblk x = tagStart :: (x :: END_BYTE :: List.replicate 27 0) from rfl]
  simp only [readLoop]
  rw [if_neg (by simp), if_neg (by simp)]
  rw [if_neg (by
      simp only [List.isEmpty_eq_true, List.nil_append]
      rintro ⟨h1, h2⟩
      cases h1), if_pos hyne]
  dsimp only
  rw [List.nil_append, take_content_single x]
  rw [show (x :: END_BYTE :: List.replicate 26 0)
      = [x] ++ [END_BYTE] ++ List.replicate 26 0 from rfl]
  rw [stripZeros_spec [x] 26, stripEnd_spec [x]]
  rw [show idDec [x] = some [x] from rfl]
  rw [take_flatten_uniform bs j hu (by omega)]
  rw [if_pos (by simp)]
  refine congrArg (fun z => (Except.ok [x], z)) ?_
  refine congrArg (fun f => Cabide.mk f nb (insertEB eb 1 j)) ?_
  rw [List.set_eq_take_append_cons_drop, if_pos hjlt, hdrop1]
  rw [List.flatten_append, List.flatten_cons]
  rfl

/-- The handle-collecting write fold of single-byte records over a store
whose cursor points at the start of a zero tail: each write lands at the
cursor, and the handles come back in order. -/
theorem foldl_writeH_zeros :
    ∀ (m k : Nat) (A : List Nat) (Z : Nat) (acc : List Nat),
      A.length = k * BLOCK_SIZE → m * BLOCK_SIZE ≤ Z →
    (List.range' k m).foldl
        (fun (a : Cabide × List Nat) (i : Nat) =>
          ((a.1.write [i]).1, a.2 ++ [(a.1.write [i]).2]))
        (⟨A ++ List.replicate Z 0, k, []⟩, acc)
      = (⟨A ++ ((List.range' k m).map (fun i => writeRecord [i])).flatten
            ++ List.replicate (Z - m * BLOCK_SIZE) 0, k + m, []⟩,
         acc ++ List.range' k m) := by
  intro m
  induction m with
  | zero =>
    intro k A Z acc hA hZ
    simp
  | succ n ih =>
    intro k A Z acc hA hZ
    rw [List.range'_succ, List.foldl_cons]
    have hw := write_intoZeros A Z k [k] hA
    rw [hw]
    dsimp only
    have hrl : (writeRecord [k]).length = BLOCK_SIZE := by
      rw [writeRecord_length, List.length_singleton]
      decide
    have hA2 : (A ++ writeRecord [k]).length = (k + 1) * BLOCK_SIZE := by
      rw [List.length_append, hA, hrl]
      ring
    have hZ2 : n * BLOCK_SIZE ≤ Z - (writeRecord [k]).length := by
      rw [hrl]
      rw [BLOCK_SIZE_eq] at hZ ⊢
      omega
    have hcd : ceilDiv ([k] : List Nat).length CONTENT_SIZE = 1 := by
      rw [List.length_singleton]
      decide
    rw [show k + ceilDiv ([k] : List Nat).length CONTENT_SIZE = k + 1 by rw [hcd]]
    rw [ih (k + 1) (A ++ writeRecord [k]) (Z - (writeRecord [k]).length) (acc ++ [k]) hA2 hZ2]
    refine congrArg₂ Prod.mk ?_ ?_
    · refine congrArg₂ (fun f n2 => Cabide.mk f n2 []) ?_ ?_
      · rw [List.map_cons, List.flatten_cons]
        rw [hrl]
        have hcount : Z - BLOCK_SIZE - n * BLOCK_SIZE = Z - (n + 1) * BLOCK_SIZE := by
          rw [BLOCK_SIZE_eq] at *
          omega
        rw [hcount]
        simp [List.append_assoc]
      · omega
    · rw [List.append_assoc]
      rfl

theorem sblk_length (x : Nat) : (sblk x).length = BLOCK_SIZE := by
  unfold sblk
  rw [BLOCK_SIZE_eq]
  simp

theorem zblk_length (x : Nat) : (zblk x).length = BLOCK_SIZE := by
  unfold zblk
  rw [BLOCK_SIZE_eq]
  simp

set_option maxRecDepth 100000 in
set_option maxHeartbeats 1000000 in
/-- C5: the documented scenario - open a fresh store pre-allocated to 1000
blocks, write 100 single-block records (handles 0..99, blocks() = 1000),
remove blocks 40, 30 and 35 in that order; the next single-block write
returns block 35, the most recently freed single-block run. -/
theorem c5_lifo_best_fit :
    ((List.range 100).foldl
        (fun (a : Cabide × List Nat) (i : Nat) =>
          ((a.1.write [i]).1, a.2 ++ [(a.1.write [i]).2]))
        (Cabide.new [] (some 1000), [])).2 = List.range 100 ∧
    ((List.range 100).foldl
        (fun (a : Cabide × List Nat) (i : Nat) =>
          ((a.1.write [i]).1, a.2 ++ [(a.1.write [i]).2]))
        (Cabide.new [] (some 1000), [])).1.blocks = 1000 ∧
    ((Cabide.remove idDec
        ((Cabide.remove idDec
          ((Cabide.remove idDec
            ((List.range 100).foldl
              (fun (a : Cabide × List Nat) (i : Nat) =>
                ((a.1.write [i]).1, a.2 ++ [(a.1.write [i]).2]))
              (Cabide.new [] (some 1000), [])).1 40).2) 30).2) 35).2.write [255]).2
      = 35 := by
  have hnew : Cabide.new [] (some 1000) = ⟨List.replicate 30000 0, 0, []⟩ := by
    unfold Cabide.new
    rw [if_pos (by rfl)]
    unfold setLen
    rw [BLOCK_SIZE_eq]
    norm_num
  have hfold := foldl_writeH_zeros 100 0 [] 30000 [] (by simp) (by rw [BLOCK_SIZE_eq]; omega)
  simp only [List.nil_append] at hfold
  rw [← List.range_eq_range'] at hfold
  have hmapsb : (List.range 100).map (fun i => writeRecord [i])
      = (List.range 100).map sblk :=
    List.map_congr_left (fun i _ => writeRecord_single i)
  have hrep : List.replicate (30000 - 100 * BLOCK_SIZE) (0:Nat)
      = (List.replicate 900 (List.replicate BLOCK_SIZE 0)).flatten := by
    rw [flatten_replicate_zero]
    rw [BLOCK_SIZE_eq]
  have hfile : ((List.range 100).map (fun i => writeRecord [i])).flatten
        ++ List.replicate (30000 - 100 * BLOCK_SIZE) 0
      = ((List.range 100).map sblk
          ++ List.replicate 900 (List.replicate BLOCK_SIZE 0)).flatten := by
    rw [hmapsb, hrep, List.flatten_append]
  rw [hfile] at hfold
  have hu : ∀ b ∈ (List.range 100).map sblk
      ++ List.replicate 900 (List.replicate BLOCK_SIZE 0), b.length = BLOCK_SIZE := by
    intro b hb
    rcases List.mem_append.mp hb with hb | hb
    · obtain ⟨i, _, rfl⟩ := List.mem_map.mp hb
      exact sblk_length i
    · rw [List.eq_of_mem_replicate hb, List.length_replicate]
  have hlen1000 : ((List.range 100).map sblk
      ++ List.replicate 900 (List.replicate BLOCK_SIZE 0)).length = 1000 := by
    rw [List.length_append, List.length_map, List.length_range, List.length_replicate]
  rw [hnew]
  rw [hfold]
  refine ⟨by simp, ?_, ?_⟩
  · show Cabide.blocks _ = 1000
    unfold Cabide.blocks
    dsimp only
    rw [flatten_uniform_length _ hu, hlen1000, Nat.mul_comm, ceilDiv_mul_self]
  · dsimp only
    have hgetsb : ∀ i, i < 100 →
        ((List.range 100).map sblk ++ List.replicate 900 (List.replicate BLOCK_SIZE 0))[i]?
          = some (sblk i) := by
      intro i hi
      rw [List.getElem?_append_left (by rw [List.length_map, List.length_range]; omega),
        List.getElem?_map, List.getElem?_range hi]
      rfl
    have h40 := remove_single
      ((List.range 100).map sblk ++ List.replicate 900 (List.replicate BLOCK_SIZE 0))
      40 40 (0 + 100) [] hu (by rw [hlen1000]; omega) (hgetsb 40 (by omega))
      ⟨tagStart, 41 :: END_BYTE :: List.replicate 27 0, by rw [hgetsb 41 (by omega)]; rfl, by decide⟩
    rw [h40]
    dsimp only
    have hu1 : ∀ b ∈ ((List.range 100).map sblk
        ++ List.replicate 900 (List.replicate BLOCK_SIZE 0)).set 40 (zblk 40),
        b.length = BLOCK_SIZE := by
      intro b hb
      rcases List.mem_or_eq_of_mem_set hb with hb | rfl
      · exact hu b hb
      · exact zblk_length 40
    have h30 := remove_single
      (((List.range 100).map sblk ++ List.replicate 900 (List.replicate BLOCK_SIZE 0)).set
        40 (zblk 40))
      30 30 (0 + 100) (insertEB [] 1 40) hu1
      (by rw [List.length_set, hlen1000]; omega)
      (by rw [List.getElem?_set_ne (by omega)]; exact hgetsb 30 (by omega))
      ⟨tagStart, 31 :: END_BYTE :: List.replicate 27 0,
        by rw [List.getElem?_set_ne (by omega)]; rw [hgetsb 31 (by omega)]; rfl, by decide⟩
    rw [h30]
    dsimp only
    have hu2 : ∀ b ∈ (((List.range 100).map sblk
        ++ List.replicate 900 (List.replicate BLOCK_SIZE 0)).set 40 (zblk 40)).set
        30 (zblk 30), b.length = BLOCK_SIZE := by
      intro b hb
      rcases List.mem_or_eq_of_mem_set hb with hb | rfl
      · exact hu1 b hb
      · exact zblk_length 30
    have h35 := remove_single
      ((((List.range 100).map sblk ++ List.replicate 900 (List.replicate BLOCK_SIZE 0)).set
        40 (zblk 40)).set 30 (zblk 30))
      35 35 (0 + 100) (insertEB (insertEB [] 1 40) 1 30) hu2
      (by rw [List.length_set, List.length_set, hlen1000]; omega)
      (by
        rw [List.getElem?_set_ne (by omega), List.getElem?_set_ne (by omega)]
        exact hgetsb 35 (by omega))
      ⟨tagStart, 36 :: END_BYTE :: List.replicate 27 0,
        by
          rw [List.getElem?_set_ne (by omega), List.getElem?_set_ne (by omega)]
          rw [hgetsb 36 (by omega)]; rfl,
        by decide⟩
    rw [h35]
    rfl
